import Mathlib

/-!
# Verification of the ligandum pairing / ratio / curation core

Shallow embedding of the core of the `ligandum` repository
(`src/ligandum.py` and `src/ratios.py`) and proofs about it.

Molecule strings are embedded as `List Char`.  Python's `str.count`,
`str.replace` and `str.find` are embedded as `countOcc`, `replaceAll` and
`findSub` below, including Python's special behaviour on the empty pattern
(`count('')` is `len + 1`, `replace('', r)` inserts `r` at every position).
Python dictionaries keyed by strings are embedded as association lists with
`alookup` / `aupsert`.  Numeric quantities that the source manipulates as
IEEE floats are embedded as rationals; every float computation the claims
touch is exact (integer channels, exact thresholds), so the rational model
agrees with the float one on those inputs.  Exceptions are embedded with
`Except Unit` where the source can raise, and by totality where it cannot.
-/

/-- Python `str.count(pat)` on `List Char`: number of non-overlapping
occurrences, scanning left to right.  Python returns `len + 1` for the empty
pattern, which the `pat = []` branches reproduce. -/
def countOcc (pat : List Char) : List Char → Nat
  | [] => if pat = [] then 1 else 0
  | c :: r =>
    if h : pat ≠ [] ∧ pat.isPrefixOf (c :: r) then
      1 + countOcc pat ((c :: r).drop pat.length)
    else
      (if pat = [] then 1 else 0) + countOcc pat r
termination_by l => l.length
decreasing_by
  · simp only [List.length_drop]
    have hp : 0 < pat.length := List.length_pos.mpr h.1
    simp only [List.length_cons]
    omega
  · simp

/-- Python `str.replace(pat, rep)` on `List Char`: replace every
non-overlapping occurrence, scanning left to right.  The `pat = []` branches
reproduce Python's empty-pattern behaviour. -/
def replaceAll (pat rep : List Char) : List Char → List Char
  | [] => if pat = [] then rep else []
  | c :: r =>
    if h : pat ≠ [] ∧ pat.isPrefixOf (c :: r) then
      rep ++ replaceAll pat rep ((c :: r).drop pat.length)
    else
      (if pat = [] then rep else []) ++ c :: replaceAll pat rep r
termination_by l => l.length
decreasing_by
  · simp only [List.length_drop]
    have hp : 0 < pat.length := List.length_pos.mpr h.1
    simp only [List.length_cons]
    omega
  · simp

/-- Python `str.find(pat)` on `List Char`: index of the leftmost occurrence,
`none` standing for Python's `-1`. -/
def findSub (pat : List Char) : List Char → Option Nat
  | [] => if pat.isPrefixOf [] then some 0 else none
  | c :: r => if pat.isPrefixOf (c :: r) then some 0 else (findSub pat (r)).map (· + 1)

/-- Python dict lookup `d[k]` on an association list, `none` standing for a
`KeyError`. -/
def alookup {α β : Type} [DecidableEq α] (k : α) : List (α × β) → Option β
  | [] => none
  | (k', v) :: r => if k' = k then some v else alookup k r

/-- Python dict assignment `d[k] = v` on an association list: replace the
binding if the key is present, append it otherwise. -/
def aupsert {α β : Type} [DecidableEq α] (k : α) (v : β) : List (α × β) → List (α × β)
  | [] => [(k, v)]
  | (k', v') :: r => if k' = k then (k, v) :: r else (k', v') :: aupsert k v r

theorem alookup_aupsert {α β : Type} [DecidableEq α] (k s : α) (v : β) (l : List (α × β)) :
    alookup s (aupsert k v l) = if k = s then some v else alookup s l := by
  induction l with
  | nil => by_cases h : k = s <;> simp [aupsert, alookup, h]
  | cons p r ih =>
    obtain ⟨k', v'⟩ := p
    by_cases h : k' = k
    · subst h
      by_cases h2 : k' = s <;> simp [aupsert, alookup, h2]
    · by_cases h2 : k' = s
      · subst h2
        have : ¬ k = k' := fun hk => h hk.symm
        simp [aupsert, alookup, h, this]
      · simp [aupsert, alookup, h, h2, ih]

theorem alookup_isSome_aupsert {α β : Type} [DecidableEq α] (k s : α) (v : β)
    (l : List (α × β)) (h : (alookup s l).isSome) :
    (alookup s (aupsert k v l)).isSome := by
  rw [alookup_aupsert]
  by_cases hk : k = s <;> simp [hk, h]

/-! ## RatioEngine (`Ratios.calculate_ratios`, src/ratios.py lines 96-128)

A `LabelMap` embeds the per-key value of the aggregate mapping restricted to
what the ratio computation reads: for each label name, a map from field name
to the outcome of `float(...)` on the stored value (`none` embeds a value on
which `float` raises `ValueError`/`TypeError`, i.e. a non-numeric value). -/

/-- Per-key label data as read by `calculate_ratios`: label name ↦ field
name ↦ optional rational (the float value, `none` if non-numeric). -/
abbrev LabelMap := List (String × List (String × Option ℚ))

/-- The coercion performed by the two `try: float(value[label][quant_field])`
blocks: a missing label (`KeyError`), a missing field (`KeyError`) or a
non-numeric value (`ValueError`/`TypeError`) all coerce to `0.0`. -/
def coerceField (v : LabelMap) (label field : String) : ℚ :=
  match alookup label v with
  | none => 0
  | some fields =>
    match alookup field fields with
    | none => 0
    | some q => q.getD 0

/-- The per-key body of `calculate_ratios`: the source first computes
`float1/float2`, turning `ZeroDivisionError` into `20.0`, and then yields
`0.0` instead whenever both coerced values are `0.0`. -/
def ratioPolicy (float1 float2 : ℚ) : ℚ :=
  let result : ℚ := if float2 = 0 then 20 else float1 / float2
  if float1 = 0 ∧ float2 = 0 then 0 else result

/-- `Ratios.calculate_ratios`: one `(key, ratio)` pair per entry of the
aggregate mapping.  The source yields these lazily; the embedding collects
the same sequence into a list. -/
def calculate_ratios {K : Type} (agg : List (K × LabelMap))
    (label1 label2 quant_field : String) : List (K × ℚ) :=
  agg.map (fun kv =>
    (kv.1, ratioPolicy (coerceField kv.2 label1 quant_field)
      (coerceField kv.2 label2 quant_field)))

/-- **C1** For every key in the aggregate mapping, the ratio yielded by
`calculate_ratios` follows the documented policy after coercing any missing
label, missing field, or non-numeric value to `0.0`: if both coerced values
are `0.0` the ratio is `0.0`; if the denominator is `0.0` and the numerator
nonzero the ratio is the sentinel `20.0`; otherwise it is the real quotient.
The embedding is a total function, matching the source's policy of never
raising (all exception paths are caught and coerced). -/
theorem c1_ratio_policy {K : Type} (agg : List (K × LabelMap))
    (label1 label2 quant_field : String) (k : K) (v : LabelMap)
    (hmem : (k, v) ∈ agg) :
    (k, ratioPolicy (coerceField v label1 quant_field)
        (coerceField v label2 quant_field)) ∈
          calculate_ratios agg label1 label2 quant_field ∧
    (∀ f1 f2 : ℚ, (f1 = 0 ∧ f2 = 0 → ratioPolicy f1 f2 = 0) ∧
      (f2 = 0 → f1 ≠ 0 → ratioPolicy f1 f2 = 20) ∧
      (f2 ≠ 0 → ratioPolicy f1 f2 = f1 / f2)) := by
  constructor
  · exact List.mem_map.mpr ⟨(k, v), hmem, rfl⟩
  · intro f1 f2
    refine ⟨?_, ?_, ?_⟩
    · rintro ⟨h1, h2⟩
      simp [ratioPolicy, h1, h2]
    · intro h2 h1
      simp [ratioPolicy, h1, h2]
    · intro h2
      simp [ratioPolicy, h2]

/-- Witness for `c1_ratio_policy` at a concrete aggregate: one key with a
numeric field on `light` and a non-numeric one on `heavy`. -/
theorem c1_ratio_policy_witness :
    ((0 : Nat), ratioPolicy (coerceField [("light", [("auc", some 4)]),
        ("heavy", [("auc", none)])] "light" "auc")
      (coerceField [("light", [("auc", some 4)]), ("heavy", [("auc", none)])]
        "heavy" "auc")) ∈
      calculate_ratios [((0 : Nat), [("light", [("auc", some 4)]),
        ("heavy", [("auc", none)])])] "light" "heavy" "auc" ∧
    (∀ f1 f2 : ℚ, (f1 = 0 ∧ f2 = 0 → ratioPolicy f1 f2 = 0) ∧
      (f2 = 0 → f1 ≠ 0 → ratioPolicy f1 f2 = 20) ∧
      (f2 ≠ 0 → ratioPolicy f1 f2 = f1 / f2)) :=
  c1_ratio_policy [((0 : Nat), [("light", [("auc", some 4)]),
    ("heavy", [("auc", none)])])] "light" "heavy" "auc" 0
    [("light", [("auc", some 4)]), ("heavy", [("auc", none)])]
    (List.mem_singleton.mpr rfl)

/-! ## Curator (`Ratios.curate_pairs` / `Ratios._has_required_matches`,
src/ratios.py lines 562-604)

The curation pass reads, per key, the set of labels present (the keys of the
`labels` sub-dict, each with its `len_data` count) and the per-key curation
record.  Label names are `Option String` because `_split_molecule` can
produce the label `None` for an unlabeled molecule, and `None` is a valid
dict key in the source. -/

/-- The per-key `curation` record (`CURATION_FIELDS`). -/
structure Curation where
  required_matches : Option Nat
  has_required_matches : Option Bool
  curated : Bool
deriving DecidableEq, Repr

/-- A per-key value of the aggregate mapping as the curator sees it:
the label dict (label name ↦ `len_data`) and the curation record. -/
structure Entry where
  labels : List (Option String × Nat)
  curation : Curation
deriving DecidableEq, Repr

/-- `Ratios._has_required_matches`: `False` when the **number** of labels
present differs from the number of configured labels, otherwise `False` as
soon as some label's `len_data` is below `min_matches`, else `True`. -/
def has_required_matches (labelsInfo : List (Option String × Nat))
    (cfg : List String) (min_matches : Nat) : Bool :=
  if labelsInfo.length ≠ cfg.length then
    false
  else
    labelsInfo.all (fun p => !(p.2 < min_matches))

/-- `Ratios.curate_pairs` over an explicit key list: each key is looked up in
the aggregate (`self[key]`, a `KeyError` — embedded as `.error ()` — if
absent), skipped if already curated and `force` is false, and otherwise its
curation record is overwritten with the fresh judgment. -/
def curate_pairs {K : Type} [DecidableEq K] (cfg : List String)
    (min_matches : Nat) (force : Bool) :
    List K → List (K × Entry) → Except Unit (List (K × Entry))
  | [], agg => .ok agg
  | k :: ks, agg =>
    match alookup k agg with
    | none => .error ()
    | some e =>
      if e.curation.curated = true ∧ force = false then
        curate_pairs cfg min_matches force ks agg
      else
        curate_pairs cfg min_matches force ks
          (aupsert k { e with curation :=
            { required_matches := some min_matches,
              has_required_matches :=
                some (has_required_matches e.labels cfg min_matches),
              curated := true } } agg)

theorem curate_pairs_cons_none {K : Type} [DecidableEq K] (cfg : List String)
    (min_matches : Nat) (force : Bool) (k : K) (ks : List K)
    (agg : List (K × Entry)) (h : alookup k agg = none) :
    curate_pairs cfg min_matches force (k :: ks) agg = .error () := by
  simp [curate_pairs, h]

theorem curate_pairs_cons_some {K : Type} [DecidableEq K] (cfg : List String)
    (min_matches : Nat) (force : Bool) (k : K) (ks : List K)
    (agg : List (K × Entry)) (e : Entry) (h : alookup k agg = some e) :
    curate_pairs cfg min_matches force (k :: ks) agg =
      if e.curation.curated = true ∧ force = false then
        curate_pairs cfg min_matches force ks agg
      else
        curate_pairs cfg min_matches force ks
          (aupsert k { e with curation :=
            { required_matches := some min_matches,
              has_required_matches :=
                some (has_required_matches e.labels cfg min_matches),
              curated := true } } agg) := by
  simp [curate_pairs, h]

/-- `curate_pairs` with the source's default key list (`self.keys()`). -/
def curate_pairs_main {K : Type} [DecidableEq K] (cfg : List String)
    (min_matches : Nat) (key_list : Option (List K)) (force : Bool)
    (agg : List (K × Entry)) : Except Unit (List (K × Entry)) :=
  curate_pairs cfg min_matches force (key_list.getD (agg.map Prod.fst)) agg

/-- The label-set condition asserted by claim C2: the set of label names
present on a key equals the full configured label set. -/
def sameLabelSet (labelsInfo : List (Option String × Nat))
    (cfg : List String) : Prop :=
  ∀ x : Option String, x ∈ labelsInfo.map Prod.fst ↔ x ∈ cfg.map some

/-- **C2 counterexample** The claim's iff fails on the code: a key whose
label dict holds the unlabeled sentinel `None` and only one configured
label passes the curator's *length* comparison, so `has_required_matches`
is stored as `true` even though the set of labels present does not equal
the configured label set (`None` is present but is not a configured label,
and `"B"` is configured but absent). -/
theorem c2_curate_set_equality_counterexample :
    (curate_pairs (K := String) ["A", "B"] 3 true ["k"]
      [("k", ⟨[(none, 5), (some "A", 5)], ⟨none, none, false⟩⟩)] =
      .ok [("k", ⟨[(none, 5), (some "A", 5)],
        ⟨some 3, some true, true⟩⟩)]) ∧
    (none ∈ ([(none, 5), ((some "A" : Option String), 5)]).map Prod.fst) ∧
    (none ∉ (["A", "B"]).map (some : String → Option String)) := by
  refine ⟨?_, ?_, ?_⟩
  · rfl
  · simp
  · simp

/-- **C2 (amended)** After `curate_pairs` actually evaluates a key (it is
present and not skipped), the stored `has_required_matches` is `true` iff
the **number** of labels present on the key equals the number of configured
labels and every present label's `len_data` is at least `min_matches`.
(The source compares lengths, not label sets, so a key can satisfy this with
a non-configured label — e.g. `None` — standing in for a configured one.) -/
theorem c2_curate_count_condition {K : Type} [DecidableEq K]
    (cfg : List String) (min_matches : Nat) (force : Bool)
    (agg : List (K × Entry)) (k : K) (e : Entry)
    (hlook : alookup k agg = some e)
    (hskip : ¬ (e.curation.curated = true ∧ force = false)) :
    ∃ agg', curate_pairs cfg min_matches force [k] agg = .ok agg' ∧
      ∃ e', alookup k agg' = some e' ∧
        e'.curation.has_required_matches =
          some (has_required_matches e.labels cfg min_matches) ∧
        (has_required_matches e.labels cfg min_matches = true ↔
          (e.labels.length = cfg.length ∧
            ∀ p ∈ e.labels, min_matches ≤ p.2)) := by
  refine ⟨aupsert k { e with curation :=
    { required_matches := some min_matches,
      has_required_matches :=
        some (has_required_matches e.labels cfg min_matches),
      curated := true } } agg, ?_, ?_⟩
  · rw [curate_pairs_cons_some cfg min_matches force k [] agg e hlook,
      if_neg hskip]
    rfl
  · refine ⟨{ e with curation :=
      { required_matches := some min_matches,
        has_required_matches :=
          some (has_required_matches e.labels cfg min_matches),
        curated := true } }, ?_, rfl, ?_⟩
    · rw [alookup_aupsert]
      simp
    · constructor
      · intro htrue
        unfold has_required_matches at htrue
        by_cases hlen : e.labels.length = cfg.length
        · refine ⟨hlen, fun p hp => ?_⟩
          rw [if_neg (fun hne => hne hlen)] at htrue
          have := List.all_eq_true.mp htrue p hp
          simpa using this
        · rw [if_pos hlen] at htrue
          exact absurd htrue (by simp)
      · rintro ⟨hlen, hall⟩
        unfold has_required_matches
        rw [if_neg (fun hne => hne hlen)]
        exact List.all_eq_true.mpr (fun p hp => by simpa using hall p hp)

/-- Witness for `c2_curate_count_condition` at a concrete aggregate with
both configured labels present and enough matches. -/
theorem c2_curate_count_condition_witness :
    ∃ agg', curate_pairs (K := String) ["A", "B"] 3 true ["k"]
        [("k", ⟨[(some "A", 5), (some "B", 4)], ⟨none, none, false⟩⟩)] =
        .ok agg' ∧
      ∃ e', alookup "k" agg' = some e' ∧
        e'.curation.has_required_matches =
          some (has_required_matches [(some "A", 5), (some "B", 4)]
            ["A", "B"] 3) ∧
        (has_required_matches [(some "A", 5), (some "B", 4)] ["A", "B"] 3
            = true ↔
          (([(some "A", 5), ((some "B" : Option String), 4)]).length =
              (["A", "B"]).length ∧
            ∀ p ∈ [((some "A" : Option String), 5), (some "B", 4)],
              3 ≤ p.2)) :=
  c2_curate_count_condition ["A", "B"] 3 true
    [("k", ⟨[(some "A", 5), (some "B", 4)], ⟨none, none, false⟩⟩)] "k"
    ⟨[(some "A", 5), (some "B", 4)], ⟨none, none, false⟩⟩
    (by rfl) (by simp)

/-- **C7 counterexample** Curating a key list whose first key is absent from
the aggregate raises a `KeyError` (`.error ()`): the run aborts instead of
skipping with a warning, and the present key `"k1"` of the subset is never
curated.  (The warn-and-skip behaviour the claim describes lives in
`plot_pairs`, not in `curate_pairs`.) -/
theorem c7_curate_absent_key_counterexample :
    curate_pairs (K := String) ["A", "B"] 3 true ["missing", "k1"]
      [("k1", ⟨[(some "A", 5), (some "B", 4)], ⟨none, none, false⟩⟩)] =
      .error () := by
  rfl

/-- **C7 (amended)** `curate_pairs` completes normally iff every requested
key is present in the aggregate; a requested key absent from the aggregate
makes the whole call raise `KeyError` (embedded as `.error ()`) rather than
being skipped with a recoverable warning. -/
theorem c7_curate_absent_key_raises {K : Type} [DecidableEq K]
    (cfg : List String) (min_matches : Nat) (force : Bool)
    (keys : List K) (agg : List (K × Entry)) :
    (∃ agg', curate_pairs cfg min_matches force keys agg = .ok agg') ↔
      ∀ k ∈ keys, (alookup k agg).isSome := by
  induction keys generalizing agg with
  | nil => simp [curate_pairs]
  | cons k ks ih =>
    constructor
    · rintro ⟨agg', hok⟩
      intro k' hk'
      cases hlook : alookup k agg with
      | none =>
        rw [curate_pairs_cons_none cfg min_matches force k ks agg hlook] at hok
        exact absurd hok (by simp)
      | some e =>
        rw [curate_pairs_cons_some cfg min_matches force k ks agg e hlook] at hok
        rcases List.mem_cons.mp hk' with h | h
        · subst h
          simp [hlook]
        · by_cases hskip : e.curation.curated = true ∧ force = false
          · rw [if_pos hskip] at hok
            exact (ih agg).mp ⟨agg', hok⟩ k' h
          · rw [if_neg hskip] at hok
            have := (ih _).mp ⟨agg', hok⟩ k' h
            rw [alookup_aupsert] at this
            by_cases hkk : k = k'
            · subst hkk; simp [hlook]
            · rw [if_neg hkk] at this; exact this
    · intro hall
      have hk : (alookup k agg).isSome := hall k (List.mem_cons_self k ks)
      cases hlook : alookup k agg with
      | none => rw [hlook] at hk; exact absurd hk (by simp)
      | some e =>
        by_cases hskip : e.curation.curated = true ∧ force = false
        · obtain ⟨agg', hok⟩ := (ih agg).mpr
            (fun k' hk' => hall k' (List.mem_cons_of_mem _ hk'))
          refine ⟨agg', ?_⟩
          rw [curate_pairs_cons_some cfg min_matches force k ks agg e hlook,
            if_pos hskip]
          exact hok
        · obtain ⟨agg', hok⟩ := (ih (aupsert k { e with curation :=
            { required_matches := some min_matches,
              has_required_matches :=
                some (has_required_matches e.labels cfg min_matches),
              curated := true } } agg)).mpr
            (fun k' hk' => alookup_isSome_aupsert _ _ _ _
              (hall k' (List.mem_cons_of_mem _ hk')))
          refine ⟨agg', ?_⟩
          rw [curate_pairs_cons_some cfg min_matches force k ks agg e hlook,
            if_neg hskip]
          exact hok

/-- Witness for `c7_curate_absent_key_raises` on a concrete aggregate. -/
theorem c7_curate_absent_key_raises_witness :
    (∃ agg', curate_pairs (K := String) ["A", "B"] 3 true ["k1"]
        [("k1", ⟨[(some "A", 5), (some "B", 4)], ⟨none, none, false⟩⟩)] =
        .ok agg') ↔
      ∀ k ∈ ["k1"], (alookup k
        ([("k1", ⟨[(some "A", 5), (some "B", 4)], ⟨none, none, false⟩⟩)] :
          List (String × Entry))).isSome :=
  c7_curate_absent_key_raises ["A", "B"] 3 true ["k1"]
    [("k1", ⟨[(some "A", 5), (some "B", 4)], ⟨none, none, false⟩⟩)]

/-! ## KeyCodec (`Ratios._split_molecule`, src/ratios.py lines 226-253)

The decoder works on the raw molecule string.  `label_position` is a
dynamically typed Python value: the integer `-1` when undetermined, a
substring of the molecule otherwise; `PyVal` embeds that.  All the string
operations used by the source (`find`, slicing, `replace`) are total, so the
embedding is a total function: the source never raises. -/

/-- A dynamically typed Python value as stored in `label_position`. -/
inductive PyVal where
  | int (i : Int)
  | str (s : List Char)
deriving DecidableEq, Repr

/-- Python `str(...)` of a `label_position` value as used by
`'{0}:{1}'.format(label, label_position)`. -/
def pyFormatPos : PyVal → List Char
  | .int i => (toString i).toList
  | .str s => s

/-- Python `str(...)` of the label as used by the same format call: the
label name, or the four characters `None` when no label was found. -/
def pyFormatLabel : Option (List Char) → List Char
  | none => "None".toList
  | some lab => lab

/-- `pat` occurs as a contiguous substring of `s`. -/
def isSub (pat s : List Char) : Prop := ∃ l r, s = l ++ pat ++ r

theorem isPrefixOf_iff_exists (l₁ l₂ : List Char) :
    l₁.isPrefixOf l₂ = true ↔ ∃ t, l₂ = l₁ ++ t := by
  induction l₁ generalizing l₂ with
  | nil => simp [List.isPrefixOf]
  | cons a as ih =>
    cases l₂ with
    | nil => simp [List.isPrefixOf]
    | cons b bs =>
      simp only [List.isPrefixOf, Bool.and_eq_true, beq_iff_eq, ih,
        List.cons_append, List.cons.injEq]
      constructor
      · rintro ⟨rfl, t, rfl⟩
        exact ⟨t, rfl, rfl⟩
      · rintro ⟨t, rfl, rfl⟩
        exact ⟨rfl, t, rfl⟩

theorem findSub_eq_none_iff (pat s : List Char) :
    findSub pat s = none ↔ ¬ isSub pat s := by
  induction s with
  | nil =>
    cases pat with
    | nil => simp [findSub, List.isPrefixOf, isSub]
    | cons c r =>
      simp only [findSub, List.isPrefixOf, Bool.false_eq_true, if_false, isSub]
      constructor
      · rintro - ⟨l, t, hl⟩
        exact absurd hl.symm (by simp)
      · intro _
        trivial
  | cons c r ih =>
    by_cases hp : pat.isPrefixOf (c :: r) = true
    · simp only [findSub, hp, if_true]
      obtain ⟨t, ht⟩ := (isPrefixOf_iff_exists pat (c :: r)).mp hp
      constructor
      · intro h; exact absurd h (by simp)
      · intro h; exact absurd ⟨[], t, by simp [ht]⟩ h
    · simp only [findSub, hp, Bool.false_eq_true, if_false]
      rw [Option.map_eq_none', ih]
      constructor
      · rintro h ⟨l, t, hl⟩
        cases l with
        | nil =>
          exact hp ((isPrefixOf_iff_exists pat (c :: r)).mpr ⟨t, by simpa using hl⟩)
        | cons x xs =>
          simp only [List.cons_append, List.cons.injEq] at hl
          exact h ⟨xs, t, hl.2⟩
      · rintro h ⟨l, t, hl⟩
        exact h ⟨c :: l, t, by simp [hl]⟩

/-- The label-search loop of `_split_molecule`: for each known label name in
order, `molecule.find(label_name)`; on the first hit, slice out the
positional token (up to the next `;` or to the end) and stop. -/
def findLabelLoop (m : List Char) : List (List Char) → Option (List Char) × PyVal
  | [] => (none, .int (-1))
  | lab :: rest =>
    match findSub lab m with
    | some pos =>
      let sub := m.drop (pos + lab.length + 1)
      match findSub [';'] sub with
      | some e => (some lab, .str (sub.take e))
      | none => (some lab, .str sub)
    | none => findLabelLoop m rest

/-- The modification block `molecule[mod_start+1:]`; when `#` is absent,
Python's `mod_start = -1` makes this the whole string. -/
def modBlock (m : List Char) : List Char :=
  match findSub ['#'] m with
  | some i => m.drop (i + 1)
  | none => m

/-- The sequence part `molecule[:mod_start]`; when `#` is absent, Python's
`molecule[:-1]` drops the final character. -/
def seqPart (m : List Char) : List Char :=
  match findSub ['#'] m with
  | some i => m.take i
  | none => m.dropLast

/-- The modification block after removing every occurrence of the
`'{label}:{label_position}'` token (the state of `mods` after line 246 of
src/ratios.py, before separator collapsing). -/
def preMods (labels : List (List Char)) (m : List Char) : List Char :=
  let lp := findLabelLoop m labels
  replaceAll (pyFormatLabel lp.1 ++ [':'] ++ pyFormatPos lp.2) [] (modBlock m)

/-- The decoded molecule: `(sequence, label, label_position, mods)`. -/
structure SplitResult where
  sequence : List Char
  label : Option (List Char)
  label_position : PyVal
  mods : List Char
deriving DecidableEq, Repr

/-- `Ratios._split_molecule`: decode a molecule string against the known
label names.  After token removal the source collapses doubled separators
once (`replace(';;', ';')`) and then strips a leading separator, or — only
when no leading one exists — a trailing one. -/
def split_molecule (labels : List (List Char)) (m : List Char) : SplitResult :=
  let lp := findLabelLoop m labels
  let mods1 := replaceAll [';', ';'] [';'] (preMods labels m)
  let mods2 := if mods1.head? = some ';' then mods1.tail
    else if mods1.getLast? = some ';' then mods1.dropLast
    else mods1
  ⟨seqPart m, lp.1, lp.2, mods2⟩

/-- **C6** If no known label name occurs as a substring of the input, the
decoder returns the sentinel pair `label = None`, `labelPosition = -1`.
The embedding is a total function: every string operation `_split_molecule`
performs (`find`, slicing, `replace`, boundary tests) is total in Python as
well, so the source never raises on any input. -/
theorem c6_decode_sentinel (labels : List (List Char)) (m : List Char)
    (h : ∀ lab ∈ labels, ¬ isSub lab m) :
    (split_molecule labels m).label = none ∧
    (split_molecule labels m).label_position = PyVal.int (-1) := by
  have hloop : findLabelLoop m labels = (none, PyVal.int (-1)) := by
    induction labels with
    | nil => rfl
    | cons lab rest ih =>
      have hfind : findSub lab m = none :=
        (findSub_eq_none_iff lab m).mpr (h lab (List.mem_cons_self lab rest))
      simp only [findLabelLoop, hfind]
      exact ih (fun l hl => h l (List.mem_cons_of_mem _ hl))
  constructor <;> simp [split_molecule, hloop]

/-- Witness for `c6_decode_sentinel`: a molecule carrying only an oxidation
modification, decoded against the two TEV label names. -/
theorem c6_decode_sentinel_witness :
    (split_molecule ["TEV_H".toList, "TEV_L".toList] "PEPTIDE#Ox:3".toList).label
        = none ∧
    (split_molecule ["TEV_H".toList, "TEV_L".toList]
        "PEPTIDE#Ox:3".toList).label_position = PyVal.int (-1) :=
  c6_decode_sentinel ["TEV_H".toList, "TEV_L".toList] "PEPTIDE#Ox:3".toList
    (by
      intro lab hlab
      rcases List.mem_cons.mp hlab with h | h
      · subst h
        intro hsub
        have : findSub "TEV_H".toList "PEPTIDE#Ox:3".toList ≠ none := by
          intro hn
          exact (findSub_eq_none_iff _ _).mp hn hsub
        exact this (by decide)
      · rcases List.mem_cons.mp h with h2 | h2
        · subst h2
          intro hsub
          have : findSub "TEV_L".toList "PEPTIDE#Ox:3".toList ≠ none := by
            intro hn
            exact (findSub_eq_none_iff _ _).mp hn hsub
          exact this (by decide)
        · exact absurd h2 (List.not_mem_nil _))

/-! ### Separator normalization (src/ratios.py lines 247-251)

`mods.replace(';;', ';')` is a *single* left-to-right collapse pass, and the
subsequent `if`/`elif` strips a leading separator **or** (only if there is
no leading one) a trailing separator.  `collapse` is a structural recursion
equal to that `replace` call, introduced to reason about it. -/

/-- One left-to-right pass replacing `;;` by `;` (equals
`replaceAll [';',';'] [';']`). -/
def collapse : List Char → List Char
  | [] => []
  | [c] => [c]
  | a :: b :: r =>
    if a = ';' ∧ b = ';' then ';' :: collapse r else a :: collapse (b :: r)

theorem collapse_eq_replaceAll (s : List Char) :
    replaceAll [';', ';'] [';'] s = collapse s := by
  induction s using collapse.induct with
  | case1 => simp [replaceAll, collapse]
  | case2 c => simp [replaceAll, collapse, List.isPrefixOf]
  | case3 a b r hab ih =>
    obtain ⟨rfl, rfl⟩ := hab
    rw [collapse, if_pos ⟨rfl, rfl⟩, replaceAll,
      dif_pos ⟨by simp, by simp [List.isPrefixOf]⟩]
    simpa using ih
  | case4 a b r hab ih =>
    have hpre : ([';', ';'].isPrefixOf (a :: b :: r)) = false := by
      rcases (not_and_or.mp hab) with h | h <;>
        simp [List.isPrefixOf, beq_iff_eq] <;> intro h2 <;>
        first
          | exact absurd h2.symm h
          | (intro h3; exact absurd h3.symm h)
    rw [collapse, if_neg hab, replaceAll, dif_neg (by simp [hpre])]
    simp [ih]

/-- No two adjacent separators anywhere. -/
def noDouble : List Char → Bool
  | a :: b :: r => !(decide (a = ';') && decide (b = ';')) && noDouble (b :: r)
  | _ => true

/-- No three adjacent separators anywhere. -/
def noTriple : List Char → Bool
  | a :: b :: c :: r =>
    !(decide (a = ';') && decide (b = ';') && decide (c = ';')) &&
      noTriple (b :: c :: r)
  | _ => true

theorem noDouble_cons (x : Char) (l : List Char) :
    noDouble (x :: l) = true ↔
      (¬ (x = ';' ∧ l.head? = some ';')) ∧ noDouble l = true := by
  cases l with
  | nil => simp [noDouble]
  | cons y r =>
    simp only [noDouble, Bool.and_eq_true, Bool.not_eq_true',
      Bool.and_eq_false_iff, decide_eq_false_iff_not, List.head?_cons,
      Option.some.injEq]
    constructor
    · rintro ⟨h, hr⟩
      refine ⟨?_, hr⟩
      rintro ⟨rfl, rfl⟩
      rcases h with h | h <;> exact h rfl
    · rintro ⟨h, hr⟩
      refine ⟨?_, hr⟩
      by_cases hx : x = ';'
      · right
        intro hy
        exact h ⟨hx, hy⟩
      · left
        exact hx

theorem noDouble_tail (x : Char) (l : List Char) (h : noDouble (x :: l) = true) :
    noDouble l = true :=
  ((noDouble_cons x l).mp h).2

theorem noTriple_tail (x : Char) (l : List Char) (h : noTriple (x :: l) = true) :
    noTriple l = true := by
  cases l with
  | nil => rfl
  | cons y r =>
    cases r with
    | nil => rfl
    | cons z t =>
      simp only [noTriple, Bool.and_eq_true] at h
      exact h.2

theorem collapse_ne_nil (s : List Char) (h : s ≠ []) : collapse s ≠ [] := by
  induction s using collapse.induct with
  | case1 => exact absurd rfl h
  | case2 c => simp [collapse]
  | case3 a b r hab ih => simp [collapse, if_pos hab]
  | case4 a b r hab ih => simp [collapse, if_neg hab]

theorem collapse_head (s : List Char) : (collapse s).head? = s.head? := by
  cases s with
  | nil => rfl
  | cons a t =>
    cases t with
    | nil => rfl
    | cons b r =>
      by_cases hab : a = ';' ∧ b = ';'
      · rw [collapse, if_pos hab]
        simp [hab.1]
      · rw [collapse, if_neg hab]
        simp

theorem getLast?_cons_of_ne_nil (x : Char) (l : List Char) (h : l ≠ []) :
    (x :: l).getLast? = l.getLast? := by
  cases l with
  | nil => exact absurd rfl h
  | cons y t => exact List.getLast?_cons_cons

theorem collapse_getLast (s : List Char) :
    (collapse s).getLast? = s.getLast? := by
  induction s using collapse.induct with
  | case1 => rfl
  | case2 c => rfl
  | case3 a b r hab ih =>
    rw [collapse, if_pos hab]
    cases hr : r with
    | nil => simp [collapse, hab.1, hab.2]
    | cons c t =>
      rw [← hr]
      have hne : r ≠ [] := by simp [hr]
      rw [getLast?_cons_of_ne_nil ';' (collapse r) (collapse_ne_nil r hne), ih,
        getLast?_cons_of_ne_nil a (b :: r) (by simp),
        getLast?_cons_of_ne_nil b r hne]
  | case4 a b r hab ih =>
    rw [collapse, if_neg hab,
      getLast?_cons_of_ne_nil a (collapse (b :: r)) (collapse_ne_nil _ (by simp)),
      ih, getLast?_cons_of_ne_nil a (b :: r) (by simp)]

theorem collapse_noDouble (s : List Char) (h : noTriple s = true) :
    noDouble (collapse s) = true := by
  induction s using collapse.induct with
  | case1 => rfl
  | case2 c => rfl
  | case3 a b r hab ih =>
    rw [collapse, if_pos hab]
    rw [noDouble_cons]
    have hr3 : noTriple r = true := noTriple_tail _ _ (noTriple_tail _ _ h)
    refine ⟨?_, ih hr3⟩
    rintro ⟨-, hhead⟩
    rw [collapse_head] at hhead
    cases r with
    | nil => exact absurd hhead (by simp)
    | cons c t =>
      simp only [List.head?_cons, Option.some.injEq] at hhead
      simp only [noTriple, Bool.and_eq_true, Bool.not_eq_true',
        Bool.and_eq_false_iff, decide_eq_false_iff_not] at h
      rcases h.1 with h1 | h1
      · rcases h1 with h1 | h1
        · exact h1 hab.1
        · exact h1 hab.2
      · exact h1 hhead
  | case4 a b r hab ih =>
    rw [collapse, if_neg hab]
    rw [noDouble_cons]
    refine ⟨?_, ih (noTriple_tail _ _ h)⟩
    rintro ⟨ha, hhead⟩
    rw [collapse_head] at hhead
    simp only [List.head?_cons, Option.some.injEq] at hhead
    exact hab ⟨ha, hhead⟩

theorem noDouble_dropLast (l : List Char) (h : noDouble l = true) :
    noDouble l.dropLast = true := by
  induction l with
  | nil => rfl
  | cons a t ih =>
    cases t with
    | nil => rfl
    | cons b r =>
      rw [List.dropLast_cons₂, noDouble_cons]
      have ht := noDouble_tail a (b :: r) h
      refine ⟨?_, ih ht⟩
      rintro ⟨ha, hhead⟩
      cases r with
      | nil => exact absurd hhead (by simp)
      | cons c t' =>
        rw [List.dropLast_cons₂] at hhead
        simp only [List.head?_cons, Option.some.injEq] at hhead
        exact ((noDouble_cons a (b :: c :: t')).mp h).1 ⟨ha, by simp [hhead]⟩

theorem noDouble_dropLast_getLast (l : List Char) (h : noDouble l = true)
    (hl : l.getLast? = some ';') : l.dropLast.getLast? ≠ some ';' := by
  induction l with
  | nil => simp at hl
  | cons a t ih =>
    cases t with
    | nil => simp
    | cons b r =>
      rw [List.dropLast_cons₂]
      cases hr : r with
      | nil =>
        subst hr
        intro hcon
        have ha : a = ';' := by simpa using hcon
        rw [List.getLast?_cons_cons, List.getLast?_singleton] at hl
        exact ((noDouble_cons a [b]).mp h).1
          ⟨ha, by simpa using Option.some.inj hl⟩
      | cons c t' =>
        subst hr
        have hbr : (b :: c :: t').dropLast ≠ [] := by
          rw [List.dropLast_cons₂]
          simp
        rw [getLast?_cons_of_ne_nil a _ hbr]
        exact ih (noDouble_tail a _ h) (by rwa [List.getLast?_cons_cons] at hl)

/-- **C5 counterexample** Two concrete molecule strings on which the final
`mods` component violates the claimed normalization: a run of four
separators survives the single collapse pass as a doubled separator
(`PEP#a;;;;b` → mods `a;;b`), and a block with both a leading and a
trailing separator keeps its trailing one because the `elif` strips only
the leading (`PEP#;a;` → mods `a;`). -/
theorem c5_mods_counterexample :
    (split_molecule ["TEV_H".toList, "TEV_L".toList]
        "PEP#a;;;;b".toList).mods = "a;;b".toList ∧
    noDouble "a;;b".toList = false ∧
    (split_molecule ["TEV_H".toList, "TEV_L".toList]
        "PEP#;a;".toList).mods = "a;".toList ∧
    "a;".toList.getLast? = some ';' := by
  refine ⟨?_, by decide, ?_, by decide⟩ <;>
    simp [split_molecule, preMods, modBlock, findLabelLoop, findSub,
      pyFormatLabel, pyFormatPos, replaceAll, List.isPrefixOf]

/-- **C5 (amended)** If the modification block, after removal of the label
token, contains no three consecutive separators and does not both begin and
end with a separator, then the `mods` component returned by the decoder
contains no doubled separator and no leading or trailing separator.  (The
source performs a single collapse pass and strips at most one boundary
separator, so longer runs and two-sided boundaries survive — see the
counterexample.) -/
theorem c5_mods_normalized (labels : List (List Char)) (m : List Char)
    (h3 : noTriple (preMods labels m) = true)
    (hends : ¬ ((preMods labels m).head? = some ';' ∧
      (preMods labels m).getLast? = some ';')) :
    noDouble (split_molecule labels m).mods = true ∧
    (split_molecule labels m).mods.head? ≠ some ';' ∧
    (split_molecule labels m).mods.getLast? ≠ some ';' := by
  have hmods : (split_molecule labels m).mods =
      (if (collapse (preMods labels m)).head? = some ';' then
        (collapse (preMods labels m)).tail
      else if (collapse (preMods labels m)).getLast? = some ';' then
        (collapse (preMods labels m)).dropLast
      else collapse (preMods labels m)) := by
    simp only [split_molecule, collapse_eq_replaceAll]
  set s := preMods labels m with hs
  have hnd : noDouble (collapse s) = true := collapse_noDouble s h3
  rw [hmods]
  by_cases hhead : (collapse s).head? = some ';'
  · rw [if_pos hhead]
    obtain ⟨t, ht⟩ : ∃ t, collapse s = ';' :: t := by
      cases hc : collapse s with
      | nil => rw [hc] at hhead; exact absurd hhead (by simp)
      | cons x t =>
        rw [hc] at hhead
        simp only [List.head?_cons, Option.some.injEq] at hhead
        exact ⟨t, by rw [hhead]⟩
    rw [ht]
    simp only [List.tail_cons]
    have htail : noDouble t = true := noDouble_tail ';' t (ht ▸ hnd)
    have hthead : t.head? ≠ some ';' := by
      intro hcontra
      exact ((noDouble_cons ';' t).mp (ht ▸ hnd)).1 ⟨rfl, hcontra⟩
    refine ⟨htail, hthead, ?_⟩
    have hlast : (collapse s).getLast? ≠ some ';' := by
      rw [collapse_getLast]
      intro hcon
      rw [collapse_head] at hhead
      exact hends ⟨hhead, hcon⟩
    cases t with
    | nil => simp
    | cons y t' =>
      rw [ht, getLast?_cons_of_ne_nil ';' (y :: t') (by simp)] at hlast
      exact hlast
  · rw [if_neg hhead]
    by_cases hlast : (collapse s).getLast? = some ';'
    · rw [if_pos hlast]
      refine ⟨noDouble_dropLast _ hnd, ?_,
        noDouble_dropLast_getLast _ hnd hlast⟩
      intro hcontra
      cases hc : collapse s with
      | nil => rw [hc] at hcontra; simp at hcontra
      | cons x t =>
        cases t with
        | nil => rw [hc] at hcontra; simp at hcontra
        | cons y t' =>
          rw [hc, List.dropLast_cons₂] at hcontra
          simp only [List.head?_cons, Option.some.injEq] at hcontra
          rw [hc] at hhead
          simp [hcontra] at hhead
    · rw [if_neg hlast]
      exact ⟨hnd, hhead, hlast⟩

/-- Witness for `c5_mods_normalized` on a well-formed molecule: label token
removal leaves `;Ox:7`, whose single leading separator is stripped. -/
theorem c5_mods_normalized_witness :
    noTriple (preMods ["TEV_H".toList, "TEV_L".toList]
      "PEPTIDE#TEV_H:3;Ox:7".toList) = true ∧
    ¬ ((preMods ["TEV_H".toList, "TEV_L".toList]
        "PEPTIDE#TEV_H:3;Ox:7".toList).head? = some ';' ∧
      (preMods ["TEV_H".toList, "TEV_L".toList]
        "PEPTIDE#TEV_H:3;Ox:7".toList).getLast? = some ';') ∧
    (noDouble (split_molecule ["TEV_H".toList, "TEV_L".toList]
        "PEPTIDE#TEV_H:3;Ox:7".toList).mods = true ∧
      (split_molecule ["TEV_H".toList, "TEV_L".toList]
        "PEPTIDE#TEV_H:3;Ox:7".toList).mods.head? ≠ some ';' ∧
      (split_molecule ["TEV_H".toList, "TEV_L".toList]
        "PEPTIDE#TEV_H:3;Ox:7".toList).mods.getLast? ≠ some ';') := by
  have hpre : preMods ["TEV_H".toList, "TEV_L".toList]
      "PEPTIDE#TEV_H:3;Ox:7".toList = ";Ox:7".toList := by
    simp [preMods, modBlock, findLabelLoop, findSub,
      pyFormatLabel, pyFormatPos, replaceAll, List.isPrefixOf]
  refine ⟨by rw [hpre]; decide, by rw [hpre]; decide,
    c5_mods_normalized ["TEV_H".toList, "TEV_L".toList]
      "PEPTIDE#TEV_H:3;Ox:7".toList (by rw [hpre]; decide)
      (by rw [hpre]; decide)⟩

/-! ## ScoreColorizer (`Ratios.colorize_score`, src/ratios.py lines 325-346)

The gradient is the ascending list `sorted(pyqms.params['COLORS'].items())`
of `(threshold, rgbTriple)` pairs; channels are integers.  `bisect.bisect`
compares the tuple `(score,)` against `(threshold, rgb)` pairs, and a
1-tuple sorts strictly before any equal-first 2-tuple, so on the sorted
gradient the insertion point is the number of thresholds strictly below the
score; `bisectIdx` embeds that.  Scores and thresholds are embedded as
rationals: every computation the claims exercise (exact thresholds, integer
channels, midpoints) is exact in binary floating point as well.
`sys.float_info.epsilon` is `2 ^ (-52)`.  Python 3's `round` is
round-half-to-even (`pyRound`).  An `IndexError` (empty gradient with a
non-`None` score) is embedded as `none`. -/

/-- An RGB triple with integer channels. -/
abbrev RGB := ℤ × ℤ × ℤ

/-- `sys.float_info.epsilon`. -/
def eps : ℚ := 1 / 2 ^ 52

/-- Python 3 `round`: round half to even, otherwise to nearest. -/
def pyRound (q : ℚ) : ℤ :=
  if q - ⌊q⌋ = 1 / 2 then (if 2 ∣ ⌊q⌋ then ⌊q⌋ else ⌊q⌋ + 1) else round q

/-- One channel of the linear interpolation, with the source's epsilon guard:
when the scaled delta is at most machine epsilon the lower channel is used
unchanged. -/
def interpChan (lo hi : ℤ) (dX : ℚ) : ℤ :=
  let d : ℚ := dX * ((hi : ℚ) - (lo : ℚ))
  if |d| ≤ eps then pyRound (lo : ℚ) else pyRound ((lo : ℚ) + d)

/-- All three channels of the interpolation. -/
def interpRGB (lo hi : RGB) (dX : ℚ) : RGB :=
  (interpChan lo.1 hi.1 dX, interpChan lo.2.1 hi.2.1 dX,
    interpChan lo.2.2 hi.2.2 dX)

/-- A lowercase hexadecimal digit. -/
def hexDigit (n : Nat) : Char :=
  if n < 10 then Char.ofNat (48 + n) else Char.ofNat (87 + n)

/-- Minimal (unpadded) lowercase hexadecimal digits of a natural number, as
produced by Python's `hex(n)[2:]` for `n ≥ 0`. -/
def natHex (n : Nat) : List Char :=
  if n < 16 then [hexDigit n] else natHex (n / 16) ++ [hexDigit (n % 16)]
termination_by n
decreasing_by
  exact Nat.div_lt_self (by omega) (by omega)

/-- Python `hex(c)[2:]` for an integer channel: for a negative channel the
slice keeps the `x` of `-0x…`. -/
def pyHexInt (c : ℤ) : List Char :=
  if 0 ≤ c then natHex c.toNat else 'x' :: natHex (-c).toNat

/-- `'#' + ''.join(hex(c)[2:] for c in color)`. -/
def hexOf (c : RGB) : List Char :=
  '#' :: (pyHexInt c.1 ++ pyHexInt c.2.1 ++ pyHexInt c.2.2)

/-- `bisect.bisect(colorGradient, (score,))` on the sorted gradient: the
number of thresholds strictly below the score. -/
def bisectIdx (g : List (ℚ × RGB)) (s : ℚ) : Nat :=
  g.countP (fun p => decide (p.1 < s))

/-- `Ratios.colorize_score`: clamp below the first and above the last
threshold, interpolate linearly in between, and also render the color as a
`#`-prefixed concatenation of the channels' unpadded hex digits.  A `None`
score keeps the default color `[0, 0, 0]`. -/
def colorize_score (g : List (ℚ × RGB)) : Option ℚ → Option (RGB × List Char)
  | none => some ((0, 0, 0), hexOf (0, 0, 0))
  | some s =>
    let idx := bisectIdx g s
    if idx = 0 then
      match g with
      | [] => none
      | p :: _ => some (p.2, hexOf p.2)
    else if idx = g.length then
      match g.getLast? with
      | none => none
      | some p => some (p.2, hexOf p.2)
    else
      match g[idx - 1]?, g[idx]? with
      | some lo, some hi =>
        let dX := (s - lo.1) / (hi.1 - lo.1)
        let c := interpRGB lo.2 hi.2 dX
        some (c, hexOf c)
      | _, _ => none

theorem pyRound_int (n : ℤ) : pyRound ((n : ℚ)) = n := by
  have hfl : ⌊((n : ℚ))⌋ = n := Int.floor_intCast n
  simp only [pyRound, hfl]
  rw [if_neg (by norm_num), round_intCast]

theorem pyRound_lb (a : ℤ) (x : ℚ) (ha : (a : ℚ) ≤ x) : a ≤ pyRound x := by
  have hfl : a ≤ ⌊x⌋ := Int.le_floor.mpr ha
  unfold pyRound
  by_cases hhalf : x - ⌊x⌋ = 1 / 2
  · rw [if_pos hhalf]
    by_cases he : 2 ∣ ⌊x⌋
    · rw [if_pos he]; exact hfl
    · rw [if_neg he]; omega
  · rw [if_neg hhalf, round_eq]
    have : ⌊x⌋ ≤ ⌊x + 1 / 2⌋ := Int.floor_le_floor (by linarith)
    omega

theorem pyRound_ub (b : ℤ) (x : ℚ) (hb : x ≤ (b : ℚ)) : pyRound x ≤ b := by
  unfold pyRound
  by_cases hhalf : x - ⌊x⌋ = 1 / 2
  · have hx : x = (⌊x⌋ : ℚ) + 1 / 2 := by linarith
    have hlt : (⌊x⌋ : ℚ) < (b : ℚ) := by linarith
    have hlt2 : ⌊x⌋ < b := by exact_mod_cast hlt
    rw [if_pos hhalf]
    by_cases he : 2 ∣ ⌊x⌋
    · rw [if_pos he]; omega
    · rw [if_neg he]; omega
  · rw [if_neg hhalf, round_eq]
    have h1 : ⌊x + 1 / 2⌋ ≤ ⌊(b : ℚ) + 1 / 2⌋ := Int.floor_le_floor (by linarith)
    have h2 : ⌊(b : ℚ) + 1 / 2⌋ = b + ⌊(1 : ℚ) / 2⌋ := Int.floor_int_add b (1 / 2)
    have h3 : ⌊(1 : ℚ) / 2⌋ = 0 := by
      rw [Int.floor_eq_zero_iff]
      constructor <;> norm_num
    omega

theorem interpChan_one (lo hi : ℤ) : interpChan lo hi 1 = hi := by
  unfold interpChan
  simp only [one_mul]
  by_cases hd : |(hi : ℚ) - (lo : ℚ)| ≤ eps
  · rw [if_pos hd]
    have hcast : |(hi : ℚ) - (lo : ℚ)| = ((|hi - lo| : ℤ) : ℚ) := by
      push_cast
      rw [abs_sub_comm, abs_sub_comm ((lo : ℚ)) _]
    rw [hcast] at hd
    have heps : ((|hi - lo| : ℤ) : ℚ) < 1 := lt_of_le_of_lt hd (by norm_num [eps])
    have habs : |hi - lo| < 1 := by exact_mod_cast heps
    have hz : hi - lo = 0 := Int.abs_lt_one_iff.mp habs
    have hhl : hi = lo := by omega
    rw [hhl, pyRound_int]
  · rw [if_neg hd]
    have : (lo : ℚ) + ((hi : ℚ) - (lo : ℚ)) = ((hi : ℤ) : ℚ) := by push_cast; ring
    rw [this, pyRound_int]

theorem interpChan_bounds (lo hi : ℤ) (dX : ℚ) (h0 : 0 ≤ dX) (h1 : dX ≤ 1)
    (hlo : 0 ≤ lo ∧ lo ≤ 255) (hhi : 0 ≤ hi ∧ hi ≤ 255) :
    0 ≤ interpChan lo hi dX ∧ interpChan lo hi dX ≤ 255 := by
  unfold interpChan
  by_cases hd : |dX * ((hi : ℚ) - (lo : ℚ))| ≤ eps
  · rw [if_pos hd]
    rw [pyRound_int]
    exact hlo
  · rw [if_neg hd]
    have hlo' : (0 : ℚ) ≤ (lo : ℚ) := by exact_mod_cast hlo.1
    have hlo'' : (lo : ℚ) ≤ 255 := by exact_mod_cast hlo.2
    have hhi' : (0 : ℚ) ≤ (hi : ℚ) := by exact_mod_cast hhi.1
    have hhi'' : (hi : ℚ) ≤ 255 := by exact_mod_cast hhi.2
    constructor
    · refine pyRound_lb 0 _ ?_
      push_cast
      nlinarith
    · refine pyRound_ub 255 _ ?_
      push_cast
      nlinarith

/-- On the sorted gradient, an element's threshold is below the score
exactly when its index is below the bisection insertion point. -/
theorem bisectIdx_iff (g : List (ℚ × RGB))
    (hsort : List.Pairwise (fun a b => a.1 < b.1) g) (s : ℚ) :
    ∀ j (hj : j < g.length), (g[j].1 < s ↔ j < bisectIdx g s) := by
  induction g with
  | nil => intro j hj; simp at hj
  | cons a t ih =>
    obtain ⟨ha, ht⟩ := List.pairwise_cons.mp hsort
    intro j hj
    by_cases has : a.1 < s
    · have hcount : bisectIdx (a :: t) s = bisectIdx t s + 1 := by
        unfold bisectIdx
        rw [List.countP_cons_of_pos]
        simpa using has
      cases j with
      | zero =>
        simp only [List.getElem_cons_zero, hcount]
        exact ⟨fun _ => by omega, fun _ => has⟩
      | succ j' =>
        have hj' : j' < t.length := by simpa using hj
        simp only [List.getElem_cons_succ, hcount]
        rw [ih ht j' hj']
        omega
    · have hcount : bisectIdx (a :: t) s = 0 := by
        unfold bisectIdx
        rw [List.countP_eq_zero]
        intro x hx
        simp only [decide_eq_true_eq]
        rcases List.mem_cons.mp hx with rfl | hx'
        · exact has
        · intro hxs
          exact has (lt_trans (ha x hx') hxs)
      cases j with
      | zero =>
        simp only [List.getElem_cons_zero, hcount]
        exact ⟨fun h => absurd h has, fun h => by omega⟩
      | succ j' =>
        have hj' : j' < t.length := by simpa using hj
        simp only [List.getElem_cons_succ, hcount]
        constructor
        · intro hxs
          have hmem : t[j'] ∈ t := List.getElem_mem hj'
          have : a.1 < t[j'].1 := ha _ hmem
          exact absurd (lt_trans this hxs) has
        · omega

theorem colorize_idx_zero (g : List (ℚ × RGB)) (s : ℚ) (a : ℚ × RGB)
    (t : List (ℚ × RGB)) (hg : g = a :: t) (h : bisectIdx g s = 0) :
    colorize_score g (some s) = some (a.2, hexOf a.2) := by
  subst hg
  simp [colorize_score, h]

theorem colorize_idx_len (g : List (ℚ × RGB)) (s : ℚ) (p : ℚ × RGB)
    (h0 : bisectIdx g s ≠ 0) (h : bisectIdx g s = g.length)
    (hl : g.getLast? = some p) :
    colorize_score g (some s) = some (p.2, hexOf p.2) := by
  simp only [colorize_score]
  rw [if_neg h0, if_pos h, hl]

theorem colorize_idx_mid (g : List (ℚ × RGB)) (s : ℚ) (i : Nat) (hi1 : i ≠ 0)
    (hilen : i < g.length) (h : bisectIdx g s = i) :
    colorize_score g (some s) =
      some (interpRGB (g[i - 1]).2 (g[i]).2
          ((s - (g[i - 1]).1) / ((g[i]).1 - (g[i - 1]).1)),
        hexOf (interpRGB (g[i - 1]).2 (g[i]).2
          ((s - (g[i - 1]).1) / ((g[i]).1 - (g[i - 1]).1)))) := by
  have hb1 : i - 1 < g.length := by omega
  simp only [colorize_score, h]
  rw [if_neg hi1, if_neg (by omega : ¬ i = g.length),
    List.getElem?_eq_getElem hb1, List.getElem?_eq_getElem hilen]

theorem interpRGB_one (lo hi : RGB) : interpRGB lo hi 1 = hi := by
  obtain ⟨r, gr, b⟩ := hi
  simp [interpRGB, interpChan_one]

theorem interpRGB_half :
    interpRGB ((0, 0, 0) : RGB) ((100, 100, 100) : RGB) ((1 : ℚ)/2) =
      ((50, 50, 50) : RGB) := by
  have h : interpChan 0 100 ((2 : ℚ)⁻¹) = 50 := by
    unfold interpChan
    have hd : ((2 : ℚ)⁻¹) * (((100 : ℤ) : ℚ) - ((0 : ℤ) : ℚ)) = 50 := by
      push_cast
      norm_num
    rw [hd, if_neg (by norm_num [eps])]
    have h50 : ((0 : ℤ) : ℚ) + 50 = ((50 : ℤ) : ℚ) := by push_cast; ring
    rw [h50, pyRound_int]
  simp [interpRGB, h]

/-- **C8** On an ascending gradient with integer channels: a score strictly
below the first threshold yields the first gradient color exactly; a score
above the last threshold yields the last color exactly; a score equal to a
stored threshold yields that threshold's stored color exactly; and the
midpoint of two adjacent thresholds whose colors are `(0,0,0)` and
`(100,100,100)` yields `(50,50,50)`. -/
theorem c8_colorize_gradient (g : List (ℚ × RGB))
    (hsort : List.Pairwise (fun a b => a.1 < b.1) g) :
    (∀ s a, g.head? = some a → s < a.1 →
      colorize_score g (some s) = some (a.2, hexOf a.2)) ∧
    (∀ s a, g.getLast? = some a → a.1 < s →
      colorize_score g (some s) = some (a.2, hexOf a.2)) ∧
    (∀ i (hi : i < g.length),
      colorize_score g (some (g[i].1)) = some ((g[i]).2, hexOf ((g[i]).2))) ∧
    (∀ i (hi : i + 1 < g.length), (g[i]).2 = (0, 0, 0) →
      (g[i + 1]).2 = (100, 100, 100) →
      colorize_score g (some ((g[i].1 + g[i + 1].1) / 2)) =
        some ((50, 50, 50), hexOf (50, 50, 50))) := by
  have hiff := bisectIdx_iff g hsort
  refine ⟨?_, ?_, ?_, ?_⟩
  · intro s a hhead hs
    cases g with
    | nil => simp at hhead
    | cons b t =>
      have hb : b = a := by simpa using hhead
      subst hb
      have hlen : 0 < (b :: t).length := by simp
      have hn : bisectIdx (b :: t) s = 0 := by
        by_contra hn
        have h0 : (0 : Nat) < bisectIdx (b :: t) s := by omega
        have := (hiff s 0 hlen).mpr h0
        simp only [List.getElem_cons_zero] at this
        exact absurd hs (not_lt.mpr (le_of_lt this))
      exact colorize_idx_zero _ s b t rfl hn
  · intro s a hlast hs
    have hne : g ≠ [] := by
      intro hg
      subst hg
      simp at hlast
    have hlen : 0 < g.length := List.length_pos.mpr hne
    have hb1 : g.length - 1 < g.length := by omega
    have hget : g[g.length - 1] = a := by
      rw [List.getLast?_eq_getElem?, List.getElem?_eq_getElem hb1] at hlast
      exact Option.some.inj hlast
    have hcut : g.length - 1 < bisectIdx g s :=
      (hiff s (g.length - 1) hb1).mp (by rw [hget]; exact hs)
    have hle : bisectIdx g s ≤ g.length := by
      unfold bisectIdx
      exact List.countP_le_length _
    have hn : bisectIdx g s = g.length := by omega
    exact colorize_idx_len g s a (by omega) hn hlast
  · intro i hi
    cases i with
    | zero =>
      have hn : bisectIdx g (g[0].1) = 0 := by
        by_contra hn
        have h0 : (0 : Nat) < bisectIdx g (g[0].1) := by omega
        have := (hiff (g[0].1) 0 hi).mpr h0
        exact absurd this (lt_irrefl _)
      cases g with
      | nil => simp at hi
      | cons b t =>
        have := colorize_idx_zero (b :: t) ((b :: t)[0].1) b t rfl hn
        simpa using this
    | succ j =>
      have hup : ¬ (j + 1 < bisectIdx g (g[j + 1].1)) := by
        intro hcon
        have := (hiff (g[j + 1].1) (j + 1) hi).mpr hcon
        exact absurd this (lt_irrefl _)
      have hjlt : g[j].1 < g[j + 1].1 := by
        have := List.pairwise_iff_get.mp hsort ⟨j, by omega⟩ ⟨j + 1, hi⟩
          (by simp)
        simpa [List.get_eq_getElem] using this
      have hlow : j < bisectIdx g (g[j + 1].1) :=
        (hiff (g[j + 1].1) j (by omega)).mp hjlt
      have hn : bisectIdx g (g[j + 1].1) = j + 1 := by omega
      have hmid := colorize_idx_mid g (g[j + 1].1) (j + 1) (by omega) hi hn
      simp only [Nat.add_sub_cancel] at hmid
      rw [hmid]
      have hne : g[j + 1].1 - g[j].1 ≠ 0 := sub_ne_zero.mpr (ne_of_gt hjlt)
      rw [div_self hne, interpRGB_one]
  · intro i hi h0 h100
    have hii : i < g.length := by omega
    have hjlt : g[i].1 < g[i + 1].1 := by
      have := List.pairwise_iff_get.mp hsort ⟨i, hii⟩ ⟨i + 1, hi⟩ (by simp)
      simpa [List.get_eq_getElem] using this
    set s : ℚ := (g[i].1 + g[i + 1].1) / 2 with hs
    have hlo_s : g[i].1 < s := by rw [hs]; linarith
    have hs_hi : s < g[i + 1].1 := by rw [hs]; linarith
    have hlow : i < bisectIdx g s := (hiff s i hii).mp hlo_s
    have hup : ¬ (i + 1 < bisectIdx g s) := by
      intro hcon
      have := (hiff s (i + 1) hi).mpr hcon
      exact absurd this (not_lt.mpr (le_of_lt hs_hi))
    have hn : bisectIdx g s = i + 1 := by omega
    have hmid := colorize_idx_mid g s (i + 1) (by omega) hi hn
    simp only [Nat.add_sub_cancel] at hmid
    rw [hmid]
    have hne : g[i + 1].1 - g[i].1 ≠ 0 := sub_ne_zero.mpr (ne_of_gt hjlt)
    have hdx : (s - g[i].1) / (g[i + 1].1 - g[i].1) = (1 : ℚ)/2 := by
      rw [hs]
      field_simp
      ring
    rw [hdx, h0, h100, interpRGB_half]

/-- Witness for `c8_colorize_gradient` on the concrete two-stop gradient
`[(0, (0,0,0)), (1, (100,100,100))]`. -/
theorem c8_colorize_gradient_witness :
    (∀ s a, ([((0 : ℚ), ((0, 0, 0) : RGB)), (1, (100, 100, 100))]).head? = some a →
      s < a.1 →
      colorize_score [((0 : ℚ), ((0, 0, 0) : RGB)), (1, (100, 100, 100))] (some s) =
        some (a.2, hexOf a.2)) ∧
    (∀ s a, ([((0 : ℚ), ((0, 0, 0) : RGB)), (1, (100, 100, 100))]).getLast? = some a →
      a.1 < s →
      colorize_score [((0 : ℚ), ((0, 0, 0) : RGB)), (1, (100, 100, 100))] (some s) =
        some (a.2, hexOf a.2)) ∧
    (∀ i (hi : i < ([((0 : ℚ), ((0, 0, 0) : RGB)), (1, (100, 100, 100))]).length),
      colorize_score [((0 : ℚ), ((0, 0, 0) : RGB)), (1, (100, 100, 100))]
          (some (([((0 : ℚ), ((0, 0, 0) : RGB)), (1, (100, 100, 100))])[i].1)) =
        some ((([((0 : ℚ), ((0, 0, 0) : RGB)), (1, (100, 100, 100))])[i]).2,
          hexOf ((([((0 : ℚ), ((0, 0, 0) : RGB)), (1, (100, 100, 100))])[i]).2))) ∧
    (∀ i (hi : i + 1 < ([((0 : ℚ), ((0, 0, 0) : RGB)), (1, (100, 100, 100))]).length),
      (([((0 : ℚ), ((0, 0, 0) : RGB)), (1, (100, 100, 100))])[i]).2 = (0, 0, 0) →
      (([((0 : ℚ), ((0, 0, 0) : RGB)), (1, (100, 100, 100))])[i + 1]).2 =
        (100, 100, 100) →
      colorize_score [((0 : ℚ), ((0, 0, 0) : RGB)), (1, (100, 100, 100))]
          (some ((([((0 : ℚ), ((0, 0, 0) : RGB)), (1, (100, 100, 100))])[i].1 +
            ([((0 : ℚ), ((0, 0, 0) : RGB)), (1, (100, 100, 100))])[i + 1].1) / 2)) =
        some ((50, 50, 50), hexOf (50, 50, 50))) :=
  c8_colorize_gradient [((0 : ℚ), ((0, 0, 0) : RGB)), (1, (100, 100, 100))]
    (by
      refine List.pairwise_cons.mpr ⟨?_, ?_⟩
      · intro b hb
        simp only [List.mem_singleton] at hb
        subst hb
        norm_num
      · exact List.pairwise_singleton _ _)

/-- The sixteen lowercase hexadecimal digit characters. -/
def hexDigits : List Char := "0123456789abcdef".toList

theorem hexDigit_mem (n : Nat) (h : n < 16) : hexDigit n ∈ hexDigits := by
  interval_cases n <;> decide

theorem natHex_lt_16 (n : Nat) (h : n < 16) : natHex n = [hexDigit n] := by
  unfold natHex
  rw [if_pos h]

theorem natHex_ge_16 (n : Nat) (h16 : 16 ≤ n) (h255 : n ≤ 255) :
    natHex n = [hexDigit (n / 16), hexDigit (n % 16)] := by
  have hq : n / 16 < 16 := by omega
  unfold natHex
  rw [if_neg (by omega), natHex_lt_16 _ hq]
  rfl

theorem pyHexInt_spec (c : ℤ) (h0 : 0 ≤ c) (h255 : c ≤ 255) :
    (1 ≤ (pyHexInt c).length ∧ (pyHexInt c).length ≤ 2) ∧
    ((pyHexInt c).length = 2 ↔ 16 ≤ c) ∧
    (∀ d ∈ pyHexInt c, d ∈ hexDigits) := by
  have htn : (c.toNat : ℤ) = c := Int.toNat_of_nonneg h0
  rw [pyHexInt, if_pos h0]
  by_cases h16 : c.toNat < 16
  · rw [natHex_lt_16 _ h16]
    refine ⟨⟨by simp, by simp⟩, ?_, ?_⟩
    · simp only [List.length_singleton]
      constructor
      · omega
      · intro hc
        omega
    · intro d hd
      simp only [List.mem_singleton] at hd
      subst hd
      exact hexDigit_mem _ h16
  · have h255n : c.toNat ≤ 255 := by omega
    rw [natHex_ge_16 _ (by omega) h255n]
    refine ⟨⟨by simp, by simp⟩, ?_, ?_⟩
    · simp only [List.length_cons, List.length_singleton]
      constructor
      · intro _
        omega
      · intro _
        rfl
    · intro d hd
      rcases List.mem_cons.mp hd with rfl | hd'
      · exact hexDigit_mem _ (by omega)
      · rcases List.mem_cons.mp hd' with rfl | hd''
        · exact hexDigit_mem _ (Nat.mod_lt _ (by omega))
        · exact absurd hd'' (List.not_mem_nil _)

theorem hexOf_props (c : RGB)
    (h1 : 0 ≤ c.1 ∧ c.1 ≤ 255) (h2 : 0 ≤ c.2.1 ∧ c.2.1 ≤ 255)
    (h3 : 0 ≤ c.2.2 ∧ c.2.2 ≤ 255) :
    (hexOf c).head? = some '#' ∧
    (∀ d ∈ (hexOf c).tail, d ∈ hexDigits) ∧
    (∀ ch ∈ [c.1, c.2.1, c.2.2],
      1 ≤ (pyHexInt ch).length ∧ (pyHexInt ch).length ≤ 2 ∧
      ((pyHexInt ch).length = 2 ↔ 16 ≤ ch)) ∧
    4 ≤ (hexOf c).length ∧ (hexOf c).length ≤ 7 := by
  have s1 := pyHexInt_spec c.1 h1.1 h1.2
  have s2 := pyHexInt_spec c.2.1 h2.1 h2.2
  have s3 := pyHexInt_spec c.2.2 h3.1 h3.2
  refine ⟨rfl, ?_, ?_, ?_, ?_⟩
  · intro d hd
    simp only [hexOf, List.tail_cons, List.mem_append] at hd
    rcases hd with (hd | hd) | hd
    · exact s1.2.2 d hd
    · exact s2.2.2 d hd
    · exact s3.2.2 d hd
  · intro ch hch
    rcases List.mem_cons.mp hch with rfl | hch'
    · exact ⟨s1.1.1, s1.1.2, s1.2.1⟩
    · rcases List.mem_cons.mp hch' with rfl | hch''
      · exact ⟨s2.1.1, s2.1.2, s2.2.1⟩
      · rcases List.mem_cons.mp hch'' with rfl | hch3
        · exact ⟨s3.1.1, s3.1.2, s3.2.1⟩
        · exact absurd hch3 (List.not_mem_nil _)
  · simp only [hexOf, List.length_cons, List.length_append]
    omega
  · simp only [hexOf, List.length_cons, List.length_append]
    omega

/-- **C9 counterexample** Python's `hex(c)[2:]` does not zero-pad: a score
below the only threshold of the gradient `[(0, (0,0,0))]` yields the color
`(0,0,0)` and the hex string `#000` — four characters, not seven. -/
theorem c9_hex_counterexample :
    colorize_score [((0 : ℚ), ((0, 0, 0) : RGB))] (some (-1)) =
      some (((0, 0, 0) : RGB), "#000".toList) ∧
    ("#000".toList).length ≠ 7 := by
  have hhex : hexOf ((0, 0, 0) : RGB) = "#000".toList := by
    have h0 : pyHexInt 0 = ['0'] := by
      rw [pyHexInt, if_pos le_rfl, Int.toNat_zero, natHex_lt_16 0 (by omega)]
      rfl
    simp [hexOf, h0]
  constructor
  · have hn : bisectIdx [((0 : ℚ), ((0, 0, 0) : RGB))] (-1) = 0 := by
      unfold bisectIdx
      rw [List.countP_eq_zero]
      intro x hx
      simp only [List.mem_singleton] at hx
      subst hx
      simp only [decide_eq_true_eq]
      norm_num
    rw [colorize_idx_zero _ (-1) ((0 : ℚ), ((0, 0, 0) : RGB)) [] rfl hn, hhex]
  · decide

/-- **C9 (amended)** For every score and every ascending gradient whose
integer channels lie in `[0, 255]` (and which is nonempty whenever the score
is not `None`), the second component returned by `colorize_score` is `'#'`
followed by each channel's **unpadded** lowercase hexadecimal digits: one
digit for a channel below 16, two digits otherwise, for a total length
between 4 and 7 characters — not always exactly seven as claimed. -/
theorem c9_hex_format (g : List (ℚ × RGB)) (score : Option ℚ)
    (hsort : List.Pairwise (fun a b => a.1 < b.1) g)
    (hchan : ∀ p ∈ g, (0 ≤ p.2.1 ∧ p.2.1 ≤ 255) ∧
      (0 ≤ p.2.2.1 ∧ p.2.2.1 ≤ 255) ∧ (0 ≤ p.2.2.2 ∧ p.2.2.2 ≤ 255))
    (hne : g ≠ [] ∨ score = none) :
    ∃ c : RGB, colorize_score g score = some (c, hexOf c) ∧
      (hexOf c).head? = some '#' ∧
      (∀ d ∈ (hexOf c).tail, d ∈ hexDigits) ∧
      (∀ ch ∈ [c.1, c.2.1, c.2.2],
        1 ≤ (pyHexInt ch).length ∧ (pyHexInt ch).length ≤ 2 ∧
        ((pyHexInt ch).length = 2 ↔ 16 ≤ ch)) ∧
      4 ≤ (hexOf c).length ∧ (hexOf c).length ≤ 7 := by
  have hmain : ∃ c : RGB, colorize_score g score = some (c, hexOf c) ∧
      (0 ≤ c.1 ∧ c.1 ≤ 255) ∧ (0 ≤ c.2.1 ∧ c.2.1 ≤ 255) ∧
      (0 ≤ c.2.2 ∧ c.2.2 ≤ 255) := by
    cases score with
    | none =>
      exact ⟨(0, 0, 0), rfl, by norm_num, by norm_num, by norm_num⟩
    | some s =>
      have hgne : g ≠ [] := by
        rcases hne with h | h
        · exact h
        · exact absurd h (by simp)
      have hiff := bisectIdx_iff g hsort s
      have hle : bisectIdx g s ≤ g.length := by
        unfold bisectIdx
        exact List.countP_le_length _
      by_cases hn0 : bisectIdx g s = 0
      · cases g with
        | nil => exact absurd rfl hgne
        | cons a t =>
          refine ⟨a.2, colorize_idx_zero _ s a t rfl hn0, ?_⟩
          have := hchan a (List.mem_cons_self a t)
          exact ⟨this.1, this.2.1, this.2.2⟩
      · by_cases hnl : bisectIdx g s = g.length
        · have hlen : 0 < g.length := List.length_pos.mpr hgne
          have hb1 : g.length - 1 < g.length := by omega
          have hlast : g.getLast? = some (g[g.length - 1]) := by
            rw [List.getLast?_eq_getElem?, List.getElem?_eq_getElem hb1]
          refine ⟨(g[g.length - 1]).2,
            colorize_idx_len g s _ hn0 hnl hlast, ?_⟩
          have := hchan _ (List.getElem_mem hb1)
          exact ⟨this.1, this.2.1, this.2.2⟩
        · set n := bisectIdx g s with hndef
          have hnlen : n < g.length := by omega
          have hn1 : n - 1 < g.length := by omega
          have hlo : g[n - 1].1 < s := (hiff (n - 1) hn1).mpr (by omega)
          have hhi : ¬ (g[n].1 < s) := fun hcon =>
            absurd ((hiff n hnlen).mp hcon) (by omega)
          have hadj : g[n - 1].1 < g[n].1 := by
            have := List.pairwise_iff_get.mp hsort ⟨n - 1, hn1⟩ ⟨n, hnlen⟩
              (by simp; omega)
            simpa [List.get_eq_getElem] using this
          have hd0 : (0 : ℚ) < g[n].1 - g[n - 1].1 := by linarith
          have hdx0 : 0 ≤ (s - g[n - 1].1) / (g[n].1 - g[n - 1].1) :=
            div_nonneg (by linarith) (le_of_lt hd0)
          have hdx1 : (s - g[n - 1].1) / (g[n].1 - g[n - 1].1) ≤ 1 := by
            rw [div_le_one hd0]
            push_neg at hhi
            linarith
          have hclo := hchan _ (List.getElem_mem hn1)
          have hchi := hchan _ (List.getElem_mem hnlen)
          refine ⟨interpRGB (g[n - 1]).2 (g[n]).2
            ((s - (g[n - 1]).1) / ((g[n]).1 - (g[n - 1]).1)),
            colorize_idx_mid g s n hn0 hnlen rfl, ?_, ?_, ?_⟩
          · exact interpChan_bounds _ _ _ hdx0 hdx1 hclo.1 hchi.1
          · exact interpChan_bounds _ _ _ hdx0 hdx1 hclo.2.1 hchi.2.1
          · exact interpChan_bounds _ _ _ hdx0 hdx1 hclo.2.2 hchi.2.2
  obtain ⟨c, hc, h1, h2, h3⟩ := hmain
  obtain ⟨p1, p2, p3, p4, p5⟩ := hexOf_props c h1 h2 h3
  exact ⟨c, hc, p1, p2, p3, p4, p5⟩

/-- Witness for `c9_hex_format` on the concrete gradient
`[(0, (0,0,0)), (1, (100,100,100))]` with score `None`. -/
theorem c9_hex_format_witness :
    ∃ c : RGB, colorize_score [((0 : ℚ), ((0, 0, 0) : RGB)),
        (1, (100, 100, 100))] none = some (c, hexOf c) ∧
      (hexOf c).head? = some '#' ∧
      (∀ d ∈ (hexOf c).tail, d ∈ hexDigits) ∧
      (∀ ch ∈ [c.1, c.2.1, c.2.2],
        1 ≤ (pyHexInt ch).length ∧ (pyHexInt ch).length ≤ 2 ∧
        ((pyHexInt ch).length = 2 ↔ 16 ≤ ch)) ∧
      4 ≤ (hexOf c).length ∧ (hexOf c).length ≤ 7 :=
  c9_hex_format [((0 : ℚ), ((0, 0, 0) : RGB)), (1, (100, 100, 100))] none
    (by
      refine List.pairwise_cons.mpr ⟨?_, ?_⟩
      · intro b hb
        simp only [List.mem_singleton] at hb
        subst hb
        norm_num
      · exact List.pairwise_singleton _ _)
    (by
      intro p hp
      rcases List.mem_cons.mp hp with rfl | hp'
      · norm_num
      · rcases List.mem_cons.mp hp' with rfl | hp''
        · norm_num
        · exact absurd hp'' (List.not_mem_nil _))
    (Or.inr rfl)

/-! ## PartnerCompleter (`edit_molecule_list` / `check_pairs`,
src/ligandum.py lines 124-177)

Molecules are encoded strings (`List Char`).  The evidence lookup maps a
composition signature to a dict from molecule string to its evidence record;
the signature function (`pyqms.ChemicalComposition(...).hill_notation_unimod`)
is an external collaborator and is a parameter `sigOf` of the embedding.
`list.remove` is `List.erase` (first occurrence); iteration over
`molecule_list[:]` is a fold over a snapshot of the list, while the list
itself is threaded as state.  The `KeyError` raised by
`evidence_lookup[c.hill_notation_unimod()]` is embedded as `.error ()`. -/

/-- A molecule string. -/
abbrev Mol := List Char

/-- One molecule's record in the evidence lookup. -/
structure EvInfo where
  evidences : List (List Char)
  trivial_names : List (List Char)
deriving DecidableEq, Repr

/-- The evidence lookup: composition signature ↦ molecule ↦ record. -/
abbrev EvLookup := List (Mol × List (Mol × EvInfo))

/-- `num_of_labels`: the total number of occurrences of any label name. -/
def labelTotal (labels : List Mol) (m : Mol) : Nat :=
  labels.foldl (fun n lab => n + countOcc lab m) 0

/-- Step 1 of `edit_molecule_list`: iterate over a snapshot of the input
list, removing (first occurrence, as `list.remove` does) every molecule
whose label count is not exactly one. -/
def step1 (labels : List Mol) (l : List Mol) : List Mol :=
  l.foldl (fun acc m => if labelTotal labels m = 1 then acc else acc.erase m) l

/-- The label loop of `check_pairs`: scanning the label definitions in
order, the last label absent from the molecule ends up as the partner label
and the last label present as the current label (both initialized to the
empty string). -/
def partnerLabels (labels : List Mol) (m : Mol) : Mol × Mol :=
  labels.foldl
    (fun pc lab => if countOcc lab m = 0 then (lab, pc.2) else (pc.1, lab))
    ([], [])

/-- `partner_molecule = molecule.replace(current_label_name,
partner_label_name)`. -/
def partnerOf (labels : List Mol) (m : Mol) : Mol :=
  replaceAll (partnerLabels labels m).2 (partnerLabels labels m).1 m

/-- The marker appended to copied trivial names: Python's
`trivial_names.extend({'no MS2': True})` extends the list with the dict's
keys, i.e. appends the string `no MS2`. -/
def noMS2 : List Char := "no MS2".toList

/-- `check_pairs`: when the partner molecule is absent from the list, append
it; then index the evidence lookup with the **original** molecule's
signature (a `KeyError` — `.error ()` — when that signature is not a key),
and if the original molecule is recorded there, file a copy of its record,
flagged `no MS2`, under the **partner's** signature (replacing whatever dict
was there). -/
def check_pairs (sigOf : Mol → Mol) (labels : List Mol)
    (st : List Mol × EvLookup) (m : Mol) :
    Except Unit (List Mol × EvLookup) :=
  let p := partnerOf labels m
  if p ∈ st.1 then .ok st
  else
    let l' := st.1 ++ [p]
    match alookup (sigOf m) st.2 with
    | none => .error ()
    | some entries =>
      match alookup m entries with
      | none => .ok (l', st.2)
      | some info =>
        .ok (l', aupsert (sigOf p)
          [(p, ⟨info.evidences, info.trivial_names ++ [noMS2]⟩)] st.2)

/-- `edit_molecule_list`: the filter pass (step 1) followed by partner
completion (step 2) over a snapshot of the filtered list. -/
def edit_molecule_list (sigOf : Mol → Mol) (labels : List Mol)
    (l : List Mol) (lookup : EvLookup) : Except Unit (List Mol × EvLookup) :=
  (step1 labels l).foldlM (check_pairs sigOf labels) (step1 labels l, lookup)

theorem countOcc_nil (pat : List Char) (h : pat ≠ []) : countOcc pat [] = 0 := by
  rw [countOcc]
  simp [h]

theorem countOcc_cons_pos (pat : List Char) (c : Char) (r : List Char)
    (h1 : pat ≠ []) (h2 : pat.isPrefixOf (c :: r) = true) :
    countOcc pat (c :: r) = 1 + countOcc pat ((c :: r).drop pat.length) := by
  rw [countOcc]
  rw [dif_pos ⟨h1, h2⟩]

theorem countOcc_cons_neg (pat : List Char) (c : Char) (r : List Char)
    (h1 : pat ≠ []) (h2 : pat.isPrefixOf (c :: r) = false) :
    countOcc pat (c :: r) = countOcc pat r := by
  rw [countOcc]
  rw [dif_neg (by simp [h2])]
  simp [h1]

theorem replaceAll_nil (pat rep : List Char) (h : pat ≠ []) :
    replaceAll pat rep [] = [] := by
  rw [replaceAll]
  simp [h]

theorem replaceAll_cons_pos (pat rep : List Char) (c : Char) (r : List Char)
    (h1 : pat ≠ []) (h2 : pat.isPrefixOf (c :: r) = true) :
    replaceAll pat rep (c :: r) =
      rep ++ replaceAll pat rep ((c :: r).drop pat.length) := by
  rw [replaceAll]
  rw [dif_pos ⟨h1, h2⟩]

theorem replaceAll_cons_neg (pat rep : List Char) (c : Char) (r : List Char)
    (h1 : pat ≠ []) (h2 : pat.isPrefixOf (c :: r) = false) :
    replaceAll pat rep (c :: r) = c :: replaceAll pat rep r := by
  rw [replaceAll]
  rw [dif_neg (by simp [h2])]
  simp [h1]

theorem step1_fold_keep (labels : List Mol) (x : Mol)
    (hx : labelTotal labels x = 1) :
    ∀ (ms : List Mol) (acc : List Mol),
      ms.foldl (fun acc m =>
        if labelTotal labels m = 1 then acc else acc.erase m) (x :: acc) =
      x :: ms.foldl (fun acc m =>
        if labelTotal labels m = 1 then acc else acc.erase m) acc := by
  intro ms
  induction ms with
  | nil => intro acc; rfl
  | cons m ms ih =>
    intro acc
    by_cases hm : labelTotal labels m = 1
    · simp only [List.foldl_cons, if_pos hm]
      exact ih acc
    · have hne : m ≠ x := fun he => hm (he ▸ hx)
      have hne' : x ≠ m := Ne.symm hne
      simp only [List.foldl_cons, if_neg hm]
      rw [List.erase_cons_tail (by simp [hne'])]
      exact ih (acc.erase m)

/-- Step 1 removes exactly the molecules whose label count is not one. -/
theorem step1_eq_filter (labels : List Mol) (l : List Mol) :
    step1 labels l = l.filter (fun m => decide (labelTotal labels m = 1)) := by
  induction l with
  | nil => rfl
  | cons x xs ih =>
    unfold step1
    by_cases hx : labelTotal labels x = 1
    · simp only [List.foldl_cons, if_pos hx]
      rw [step1_fold_keep labels x hx xs xs]
      unfold step1 at ih
      rw [ih, List.filter_cons_of_pos (by simpa using hx)]
    · simp only [List.foldl_cons, if_neg hx, List.erase_cons_head]
      unfold step1 at ih
      rw [ih, List.filter_cons_of_neg (by simpa using hx)]

theorem labelTotal_pair (P Q : List Char) (m : Mol) :
    labelTotal [P, Q] m = countOcc P m + countOcc Q m := by
  simp [labelTotal]

theorem partnerOf_two_pos (P Q : List Char) (m : Mol)
    (hP : countOcc P m ≠ 0) (hQ : countOcc Q m = 0) :
    partnerOf [P, Q] m = replaceAll P Q m := by
  simp [partnerOf, partnerLabels, hP, hQ]

theorem partnerOf_two_neg (P Q : List Char) (m : Mol)
    (hP : countOcc P m = 0) (hQ : countOcc Q m ≠ 0) :
    partnerOf [P, Q] m = replaceAll Q P m := by
  simp [partnerOf, partnerLabels, hP, hQ]

theorem check_pairs_ok_list (sigOf : Mol → Mol) (labels : List Mol)
    (st st' : List Mol × EvLookup) (m : Mol)
    (h : check_pairs sigOf labels st m = .ok st') :
    (st'.1 = st.1 ∨ st'.1 = st.1 ++ [partnerOf labels m]) ∧
    partnerOf labels m ∈ st'.1 := by
  unfold check_pairs at h
  by_cases hp : partnerOf labels m ∈ st.1
  · rw [if_pos hp] at h
    have : st = st' := by
      have := Except.ok.inj h
      exact this
    subst this
    exact ⟨Or.inl rfl, hp⟩
  · rw [if_neg hp] at h
    cases hsig : alookup (sigOf m) st.2 with
    | none =>
      rw [hsig] at h
      exact absurd h (by simp)
    | some entries =>
      rw [hsig] at h
      dsimp only at h
      cases hmem : alookup m entries with
      | none =>
        rw [hmem] at h
        have := Except.ok.inj h
        subst this
        exact ⟨Or.inr rfl, by simp⟩
      | some info =>
        rw [hmem] at h
        have := Except.ok.inj h
        subst this
        exact ⟨Or.inr rfl, by simp⟩

theorem complete_fold_spec (sigOf : Mol → Mol) (labels : List Mol) :
    ∀ (ms : List Mol) (st res : List Mol × EvLookup),
      ms.foldlM (check_pairs sigOf labels) st = .ok res →
      (∀ x ∈ st.1, x ∈ res.1) ∧
      (∀ m ∈ ms, partnerOf labels m ∈ res.1) ∧
      (∀ x ∈ res.1, x ∈ st.1 ∨ ∃ m ∈ ms, x = partnerOf labels m) := by
  intro ms
  induction ms with
  | nil =>
    intro st res h
    simp only [List.foldlM_nil] at h
    have : st = res := Except.ok.inj h
    subst this
    exact ⟨fun x hx => hx, by simp, fun x hx => Or.inl hx⟩
  | cons m ms ih =>
    intro st res h
    simp only [List.foldlM_cons] at h
    cases hc : check_pairs sigOf labels st m with
    | error e =>
      rw [hc] at h
      exact absurd h (by simp [Bind.bind, Except.bind])
    | ok st' =>
      rw [hc] at h
      have hrest : ms.foldlM (check_pairs sigOf labels) st' = .ok res := h
      obtain ⟨hsub, hpart, hfrom⟩ := ih st' res hrest
      obtain ⟨hlist, hpmem⟩ := check_pairs_ok_list sigOf labels st st' m hc
      have hst_sub : ∀ x ∈ st.1, x ∈ st'.1 := by
        rcases hlist with h1 | h1 <;> rw [h1] <;> intro x hx <;> simp [hx]
      refine ⟨fun x hx => hsub x (hst_sub x hx), ?_, ?_⟩
      · intro m' hm'
        rcases List.mem_cons.mp hm' with rfl | hm''
        · exact hsub _ hpmem
        · exact hpart m' hm''
      · intro x hx
        rcases hfrom x hx with hx' | ⟨m', hm', he⟩
        · rcases hlist with h1 | h1
          · rw [h1] at hx'
            exact Or.inl hx'
          · rw [h1] at hx'
            rcases List.mem_append.mp hx' with hx'' | hx''
            · exact Or.inl hx''
            · simp only [List.mem_singleton] at hx''
              exact Or.inr ⟨m, List.mem_cons_self m ms, hx''⟩
        · exact Or.inr ⟨m', List.mem_cons_of_mem _ hm', he⟩

theorem complete_fold_noop (sigOf : Mol → Mol) (labels : List Mol) :
    ∀ (ms : List Mol) (st : List Mol × EvLookup),
      (∀ m ∈ ms, partnerOf labels m ∈ st.1) →
      ms.foldlM (check_pairs sigOf labels) st = .ok st := by
  intro ms
  induction ms with
  | nil => intro st _; rfl
  | cons m ms ih =>
    intro st hall
    have hm : partnerOf labels m ∈ st.1 := hall m (List.mem_cons_self m ms)
    have hstep : check_pairs sigOf labels st m = .ok st := by
      unfold check_pairs
      rw [if_pos hm]
    simp only [List.foldlM_cons, hstep]
    exact ih st (fun m' hm' => hall m' (List.mem_cons_of_mem _ hm'))

/-- **C3** After a successful run of `edit_molecule_list`: (a) every
molecule that survived the filter has its partner string — its present label
substituted by the complementary one — in the final list; (b) the filter
step keeps exactly the input molecules whose total label-name occurrence
count is one. -/
theorem c3_complete_partners (sigOf : Mol → Mol) (labels : List Mol)
    (l : List Mol) (lookup : EvLookup) (res : List Mol × EvLookup)
    (hok : edit_molecule_list sigOf labels l lookup = .ok res) :
    (∀ m ∈ step1 labels l, partnerOf labels m ∈ res.1) ∧
    step1 labels l = l.filter (fun m => decide (labelTotal labels m = 1)) := by
  unfold edit_molecule_list at hok
  obtain ⟨-, hpart, -⟩ := complete_fold_spec sigOf labels (step1 labels l)
    (step1 labels l, lookup) res hok
  exact ⟨hpart, step1_eq_filter labels l⟩

/-- **C10** (a) `check_pairs` guards evidence propagation only by looking
the original molecule up **inside** `evidence_lookup[sig]`; when the
partner is new and the signature itself is not a key, the lookup raises
`KeyError` (embedded `.error ()`) instead of skipping.  (b) Under the
precondition that every surviving molecule's signature is a key of the
evidence lookup, that error branch is unreachable and the completion is
total. -/
theorem c10_evidence_guard (sigOf : Mol → Mol) (labels : List Mol) :
    (∀ (st : List Mol × EvLookup) (m : Mol),
      partnerOf labels m ∉ st.1 → alookup (sigOf m) st.2 = none →
      check_pairs sigOf labels st m = .error ()) ∧
    (∀ (l : List Mol) (lookup : EvLookup),
      (∀ m ∈ step1 labels l, (alookup (sigOf m) lookup).isSome) →
      ∃ res, edit_molecule_list sigOf labels l lookup = .ok res) := by
  constructor
  · intro st m hp hsig
    unfold check_pairs
    rw [if_neg hp, hsig]
  · intro l lookup hkeys
    unfold edit_molecule_list
    have main : ∀ (ms : List Mol) (st : List Mol × EvLookup),
        (∀ m ∈ ms, (alookup (sigOf m) st.2).isSome) →
        ∃ res, ms.foldlM (check_pairs sigOf labels) st = .ok res := by
      intro ms
      induction ms with
      | nil => intro st _; exact ⟨st, rfl⟩
      | cons m ms ih =>
        intro st hall
        have hm : (alookup (sigOf m) st.2).isSome :=
          hall m (List.mem_cons_self m ms)
        by_cases hp : partnerOf labels m ∈ st.1
        · have hstep : check_pairs sigOf labels st m = .ok st := by
            unfold check_pairs
            rw [if_pos hp]
          obtain ⟨res, hres⟩ := ih st
            (fun m' hm' => hall m' (List.mem_cons_of_mem _ hm'))
          exact ⟨res, by simp only [List.foldlM_cons, hstep]; exact hres⟩
        · cases hsig : alookup (sigOf m) st.2 with
          | none => rw [hsig] at hm; exact absurd hm (by simp)
          | some entries =>
            cases hmem : alookup m entries with
            | none =>
              have hstep : check_pairs sigOf labels st m =
                  .ok (st.1 ++ [partnerOf labels m], st.2) := by
                unfold check_pairs
                rw [if_neg hp, hsig]
                dsimp only
                rw [hmem]
              obtain ⟨res, hres⟩ := ih (st.1 ++ [partnerOf labels m], st.2)
                (fun m' hm' => hall m' (List.mem_cons_of_mem _ hm'))
              exact ⟨res, by simp only [List.foldlM_cons, hstep]; exact hres⟩
            | some info =>
              have hstep : check_pairs sigOf labels st m =
                  .ok (st.1 ++ [partnerOf labels m],
                    aupsert (sigOf (partnerOf labels m))
                      [(partnerOf labels m,
                        ⟨info.evidences, info.trivial_names ++ [noMS2]⟩)]
                      st.2) := by
                unfold check_pairs
                rw [if_neg hp, hsig]
                dsimp only
                rw [hmem]
              obtain ⟨res, hres⟩ := ih (st.1 ++ [partnerOf labels m],
                aupsert (sigOf (partnerOf labels m))
                  [(partnerOf labels m,
                    ⟨info.evidences, info.trivial_names ++ [noMS2]⟩)] st.2)
                (fun m' hm' => alookup_isSome_aupsert _ _ _ _
                  (hall m' (List.mem_cons_of_mem _ hm')))
              exact ⟨res, by simp only [List.foldlM_cons, hstep]; exact hres⟩
    exact main (step1 labels l) (step1 labels l, lookup) hkeys

/-- Witness for `c3_complete_partners` on a concrete run with labels `H`/`L`
and the single sequenced molecule `aH`. -/
theorem c3_complete_partners_witness :
    (∀ m ∈ step1 ["H".toList, "L".toList] ["aH".toList],
      partnerOf ["H".toList, "L".toList] m ∈
        ((["aH".toList, "aL".toList], [("SIG".toList,
          ([] : List (Mol × EvInfo)))]) : List Mol × EvLookup).1) ∧
    step1 ["H".toList, "L".toList] ["aH".toList] =
      (["aH".toList]).filter
        (fun m => decide (labelTotal ["H".toList, "L".toList] m = 1)) :=
  c3_complete_partners (fun _ => "SIG".toList) ["H".toList, "L".toList]
    ["aH".toList] [("SIG".toList, [])]
    (["aH".toList, "aL".toList], [("SIG".toList, [])])
    (by
      simp [edit_molecule_list, step1, labelTotal, countOcc, List.isPrefixOf,
        check_pairs, partnerOf, partnerLabels, replaceAll, alookup])

/-- Witness for `c10_evidence_guard`: with an empty evidence lookup the
check step raises, and with the signature present the completion is total. -/
theorem c10_evidence_guard_witness :
    check_pairs (fun _ => "SIG".toList) ["H".toList, "L".toList]
      (["aH".toList], ([] : EvLookup)) "aH".toList = .error () ∧
    (∃ res, edit_molecule_list (fun _ => "SIG".toList)
      ["H".toList, "L".toList] ["aH".toList] [("SIG".toList, [])] =
        .ok res) := by
  constructor
  · exact (c10_evidence_guard (fun _ => "SIG".toList)
      ["H".toList, "L".toList]).1 (["aH".toList], []) "aH".toList
      (by
        simp [partnerOf, partnerLabels, countOcc, List.isPrefixOf,
          replaceAll])
      rfl
  · exact (c10_evidence_guard (fun _ => "SIG".toList)
      ["H".toList, "L".toList]).2 ["aH".toList] [("SIG".toList, [])]
      (by
        intro m hm
        have hstep : step1 ["H".toList, "L".toList] ["aH".toList] =
            ["aH".toList] := by
          simp [step1, labelTotal, countOcc, List.isPrefixOf]
        rw [hstep] at hm
        simp only [List.mem_singleton] at hm
        subst hm
        rfl)

/-! ### Replacement combinatorics for the program's label pair

`main` configures exactly two labels, `TEV_H` and `TEV_L`.  They share the
head character `T`, have equal length, differ, and contain no further `T`:
these facts (bundled as `GoodPair`) are exactly what makes
`molecule.replace(current, partner)` invertible and occurrence-preserving,
which claim C4's idempotence rests on. -/

/-- The structural facts about a label pair used by the idempotence proof;
satisfied by `TEV_H`/`TEV_L` (head `T`, no other `T`, equal length,
distinct). -/
structure GoodPair (P Q : List Char) (t : Char) : Prop where
  hPne : P ≠ []
  hQne : Q ≠ []
  hPhead : P.head? = some t
  hQhead : Q.head? = some t
  hPtail : ∀ c ∈ P.tail, c ≠ t
  hQtail : ∀ c ∈ Q.tail, c ≠ t
  hlen : P.length = Q.length
  hne : P ≠ Q

theorem GoodPair.swap {P Q : List Char} {t : Char} (h : GoodPair P Q t) :
    GoodPair Q P t :=
  ⟨h.hQne, h.hPne, h.hQhead, h.hPhead, h.hQtail, h.hPtail, h.hlen.symm,
    fun he => h.hne he.symm⟩

theorem GoodPair.decompose {P Q : List Char} {t : Char} (h : GoodPair P Q t) :
    ∃ Pt, P = t :: Pt ∧ ∀ c ∈ Pt, c ≠ t := by
  cases hP : P with
  | nil => exact absurd hP h.hPne
  | cons a Pt =>
    have : a = t := by
      have := h.hPhead
      rw [hP] at this
      simpa using this
    subst this
    refine ⟨Pt, rfl, ?_⟩
    have := h.hPtail
    rw [hP] at this
    simpa using this

/-- Stepping lemma: a prefix of the replacement output starting with a
non-`t` character forces the same character at the head of the input. -/
theorem replace_step {P Q : List Char} {t : Char} (hG : GoodPair P Q t)
    (ch : Char) (rest r : List Char) (hch : ch ≠ t)
    (hpre : (ch :: rest).isPrefixOf (replaceAll P Q r) = true) :
    ∃ r2, r = ch :: r2 ∧ rest.isPrefixOf (replaceAll P Q r2) = true := by
  cases r with
  | nil =>
    rw [replaceAll_nil P Q hG.hPne] at hpre
    simp [List.isPrefixOf] at hpre
  | cons c r3 =>
    by_cases hp : P.isPrefixOf (c :: r3) = true
    · rw [replaceAll_cons_pos P Q c r3 hG.hPne hp] at hpre
      obtain ⟨Qt, hQeq, -⟩ := hG.swap.decompose
      rw [hQeq] at hpre
      simp only [List.cons_append, List.isPrefixOf, Bool.and_eq_true,
        beq_iff_eq] at hpre
      exact absurd hpre.1 hch
    · rw [replaceAll_cons_neg P Q c r3 hG.hPne (Bool.eq_false_iff.mpr hp)] at hpre
      simp only [List.isPrefixOf, Bool.and_eq_true, beq_iff_eq] at hpre
      exact ⟨r3, by rw [hpre.1], hpre.2⟩

/-- Chaining `replace_step` over a block of non-`t` characters. -/
theorem replace_chain {P Q : List Char} {t : Char} (hG : GoodPair P Q t) :
    ∀ (rest : List Char), (∀ ch ∈ rest, ch ≠ t) →
    ∀ r, rest.isPrefixOf (replaceAll P Q r) = true →
      rest.isPrefixOf r = true := by
  intro rest
  induction rest with
  | nil => intro _ r _; simp [List.isPrefixOf]
  | cons ch rest' ih =>
    intro hall r hpre
    obtain ⟨r2, hr2, hpre2⟩ :=
      replace_step hG ch rest' r (hall ch (List.mem_cons_self _ _)) hpre
    subst hr2
    simp only [List.isPrefixOf, Bool.and_eq_true, beq_iff_eq]
    exact ⟨trivial, ih (fun c hc => hall c (List.mem_cons_of_mem _ hc)) r2 hpre2⟩

/-- If `Q` occurs at the head of the replacement output, then `P` or `Q`
occurred at the head of the input. -/
theorem replace_recover_Q {P Q : List Char} {t : Char} (hG : GoodPair P Q t)
    (m : List Char) (hpre : Q.isPrefixOf (replaceAll P Q m) = true) :
    P.isPrefixOf m = true ∨ Q.isPrefixOf m = true := by
  cases m with
  | nil =>
    rw [replaceAll_nil P Q hG.hPne] at hpre
    obtain ⟨Qt, hQeq, -⟩ := hG.swap.decompose
    rw [hQeq] at hpre
    simp [List.isPrefixOf] at hpre
  | cons c r =>
    by_cases hp : P.isPrefixOf (c :: r) = true
    · exact Or.inl hp
    · rw [replaceAll_cons_neg P Q c r hG.hPne (Bool.eq_false_iff.mpr hp)] at hpre
      obtain ⟨Qt, hQeq, hQt⟩ := hG.swap.decompose
      rw [hQeq] at hpre
      simp only [List.isPrefixOf, Bool.and_eq_true, beq_iff_eq] at hpre
      obtain ⟨rfl, hpre2⟩ := hpre
      rw [← hQeq] at hpre2
      have := replace_chain hG Qt hQt r hpre2
      right
      rw [hQeq]
      simp only [List.isPrefixOf, Bool.and_eq_true, beq_iff_eq]
      exact ⟨trivial, this⟩

/-- If `P` occurs at the head of the replacement output, it occurred at the
head of the input. -/
theorem replace_recover_P {P Q : List Char} {t : Char} (hG : GoodPair P Q t)
    (m : List Char) (hpre : P.isPrefixOf (replaceAll P Q m) = true) :
    P.isPrefixOf m = true := by
  cases m with
  | nil =>
    rw [replaceAll_nil P Q hG.hPne] at hpre
    obtain ⟨Pt, hPeq, -⟩ := hG.decompose
    rw [hPeq] at hpre
    simp [List.isPrefixOf] at hpre
  | cons c r =>
    by_cases hp : P.isPrefixOf (c :: r) = true
    · exact hp
    · rw [replaceAll_cons_neg P Q c r hG.hPne (Bool.eq_false_iff.mpr hp)] at hpre
      obtain ⟨Pt, hPeq, hPt⟩ := hG.decompose
      rw [hPeq] at hpre
      simp only [List.isPrefixOf, Bool.and_eq_true, beq_iff_eq] at hpre
      obtain ⟨rfl, hpre2⟩ := hpre
      rw [← hPeq] at hpre2
      have := replace_chain hG Pt hPt r hpre2
      rw [hPeq]
      simp only [List.isPrefixOf, Bool.and_eq_true, beq_iff_eq]
      exact ⟨trivial, this⟩

/-- `P` is never a prefix of `Q ++ X` (equal lengths, distinct). -/
theorem notP_of_QX {P Q : List Char} {t : Char} (hG : GoodPair P Q t)
    (X : List Char) : P.isPrefixOf (Q ++ X) = false := by
  by_contra hcon
  have hpre : P.isPrefixOf (Q ++ X) = true := by
    cases h : P.isPrefixOf (Q ++ X)
    · exact absurd h hcon
    · rfl
  obtain ⟨tl, htl⟩ := (isPrefixOf_iff_exists P (Q ++ X)).mp hpre
  have htake : (Q ++ X).take Q.length = Q := List.take_left Q X
  rw [htl] at htake
  rw [← hG.hlen] at htake
  rw [List.take_left P tl] at htake
  exact hG.hne htake

theorem countOcc_zero_tail (pat : List Char) (c : Char) (r : List Char)
    (hne : pat ≠ []) (h : countOcc pat (c :: r) = 0) :
    pat.isPrefixOf (c :: r) = false ∧ countOcc pat r = 0 := by
  cases hp : pat.isPrefixOf (c :: r) with
  | true =>
    rw [countOcc_cons_pos pat c r hne hp] at h
    omega
  | false =>
    rw [countOcc_cons_neg pat c r hne hp] at h
    exact ⟨rfl, h⟩

theorem countOcc_zero_drop (pat : List Char) (hne : pat ≠ []) :
    ∀ (k : Nat) (m : List Char), countOcc pat m = 0 →
      countOcc pat (m.drop k) = 0 := by
  intro k
  induction k with
  | zero => intro m h; simpa using h
  | succ k ih =>
    intro m h
    cases m with
    | nil => simpa using h
    | cons c r =>
      have := (countOcc_zero_tail pat c r hne h).2
      rw [List.drop_succ_cons]
      cases r with
      | nil => simp [countOcc_nil pat hne]
      | cons d r2 =>
        exact ih (d :: r2) this

theorem countOcc_append_no_head (pat : List Char) (t : Char)
    (hhead : pat.head? = some t) (hne : pat ≠ []) :
    ∀ (rest X : List Char), (∀ ch ∈ rest, ch ≠ t) →
      countOcc pat (rest ++ X) = countOcc pat X := by
  intro rest
  induction rest with
  | nil => intro X _; rfl
  | cons ch rest' ih =>
    intro X hall
    have hch : ch ≠ t := hall ch (List.mem_cons_self _ _)
    have hp : pat.isPrefixOf (ch :: (rest' ++ X)) = false := by
      cases hpat : pat with
      | nil => exact absurd hpat hne
      | cons a pt =>
        have ha : a = t := by
          have := hhead
          rw [hpat] at this
          simpa using this
        subst ha
        simp only [List.isPrefixOf, Bool.and_eq_true, beq_iff_eq,
          Bool.and_eq_false_iff]
        left
        simp only [beq_eq_false_iff_ne, ne_eq]
        exact fun he => hch he.symm
    rw [List.cons_append, countOcc_cons_neg pat ch (rest' ++ X) hne hp]
    exact ih X (fun c hc => hall c (List.mem_cons_of_mem _ hc))

/-- The heart of the idempotence argument: replacing the single occurrence
of `P` by `Q` in a `Q`-free molecule yields a string whose `Q`-count is the
old `P`-count, whose `P`-count is zero, and from which the reverse
replacement recovers the original exactly. -/
theorem replace_count_main {P Q : List Char} {t : Char} (hG : GoodPair P Q t) :
    ∀ (N : Nat) (m : List Char), m.length ≤ N → countOcc Q m = 0 →
      countOcc Q (replaceAll P Q m) = countOcc P m ∧
      countOcc P (replaceAll P Q m) = 0 ∧
      replaceAll Q P (replaceAll P Q m) = m := by
  intro N
  induction N with
  | zero =>
    intro m hlen hQm
    have : m = [] := List.length_eq_zero.mp (by omega)
    subst this
    rw [replaceAll_nil P Q hG.hPne]
    exact ⟨by rw [countOcc_nil Q hG.hQne, countOcc_nil P hG.hPne],
      countOcc_nil P hG.hPne, replaceAll_nil Q P hG.hQne⟩
  | succ N ih =>
    intro m hlen hQm
    cases m with
    | nil =>
      rw [replaceAll_nil P Q hG.hPne]
      exact ⟨by rw [countOcc_nil Q hG.hQne, countOcc_nil P hG.hPne],
        countOcc_nil P hG.hPne, replaceAll_nil Q P hG.hQne⟩
    | cons c r =>
      have hPlen : 0 < P.length := List.length_pos.mpr hG.hPne
      have hQlen : 0 < Q.length := List.length_pos.mpr hG.hQne
      by_cases hp : P.isPrefixOf (c :: r) = true
      · obtain ⟨tl, htl⟩ := (isPrefixOf_iff_exists P (c :: r)).mp hp
        have hdrop : (c :: r).drop P.length = tl := by
          rw [htl, List.drop_left]
        have htllen : tl.length ≤ N := by
          have : (c :: r).length = P.length + tl.length := by
            rw [htl, List.length_append]
          simp only [List.length_cons] at this hlen
          omega
        have hQtl : countOcc Q tl = 0 := by
          have := countOcc_zero_drop Q hG.hQne P.length (c :: r) hQm
          rwa [hdrop] at this
        obtain ⟨ih1, ih2, ih3⟩ := ih tl htllen hQtl
        have hRA : replaceAll P Q (c :: r) = Q ++ replaceAll P Q tl := by
          rw [replaceAll_cons_pos P Q c r hG.hPne hp, hdrop]
        obtain ⟨Qt, hQeq, hQt⟩ := hG.swap.decompose
        have hQpre : Q.isPrefixOf (Q ++ replaceAll P Q tl) = true :=
          (isPrefixOf_iff_exists Q _).mpr ⟨replaceAll P Q tl, rfl⟩
        have hQdrop : (Q ++ replaceAll P Q tl).drop Q.length =
            replaceAll P Q tl := List.drop_left Q _
        have hsplit : Q ++ replaceAll P Q tl =
            t :: (Qt ++ replaceAll P Q tl) := by
          rw [hQeq]
          rfl
        refine ⟨?_, ?_, ?_⟩
        · rw [hRA, hsplit]
          rw [countOcc_cons_pos Q t (Qt ++ replaceAll P Q tl) hG.hQne
            (by rw [← hsplit]; exact hQpre)]
          rw [show (t :: (Qt ++ replaceAll P Q tl)).drop Q.length =
            replaceAll P Q tl by rw [← hsplit]; exact hQdrop]
          rw [ih1, countOcc_cons_pos P c r hG.hPne hp, hdrop]
        · rw [hRA, hsplit]
          rw [countOcc_cons_neg P t (Qt ++ replaceAll P Q tl) hG.hPne
            (by rw [← hsplit]; exact notP_of_QX hG _)]
          obtain ⟨Pt2, hPeq2, -⟩ := hG.decompose
          rw [countOcc_append_no_head P t (by rw [hPeq2]; rfl) hG.hPne
            Qt (replaceAll P Q tl) hQt]
          exact ih2
        · rw [hRA, hsplit]
          rw [replaceAll_cons_pos Q P t (Qt ++ replaceAll P Q tl) hG.hQne
            (by rw [← hsplit]; exact hQpre)]
          rw [show (t :: (Qt ++ replaceAll P Q tl)).drop Q.length =
            replaceAll P Q tl by rw [← hsplit]; exact hQdrop]
          rw [ih3, htl]
      · have hp' : P.isPrefixOf (c :: r) = false := Bool.eq_false_iff.mpr hp
        obtain ⟨hQpre, hQr⟩ := countOcc_zero_tail Q c r hG.hQne hQm
        have hrlen : r.length ≤ N := by
          simp only [List.length_cons] at hlen
          omega
        obtain ⟨ih1, ih2, ih3⟩ := ih r hrlen hQr
        have hRA : replaceAll P Q (c :: r) = c :: replaceAll P Q r :=
          replaceAll_cons_neg P Q c r hG.hPne hp'
        have hQpre2 : Q.isPrefixOf (c :: replaceAll P Q r) = false := by
          cases hcon : Q.isPrefixOf (c :: replaceAll P Q r) with
          | false => rfl
          | true =>
            rw [← hRA] at hcon
            rcases replace_recover_Q hG (c :: r) hcon with h | h
            · rw [h] at hp'; exact absurd hp' (by simp)
            · rw [h] at hQpre; exact absurd hQpre (by simp)
        have hPpre2 : P.isPrefixOf (c :: replaceAll P Q r) = false := by
          cases hcon : P.isPrefixOf (c :: replaceAll P Q r) with
          | false => rfl
          | true =>
            rw [← hRA] at hcon
            have h := replace_recover_P hG (c :: r) hcon
            rw [h] at hp'
            exact absurd hp' (by simp)
        refine ⟨?_, ?_, ?_⟩
        · rw [hRA, countOcc_cons_neg Q c _ hG.hQne hQpre2, ih1,
            countOcc_cons_neg P c r hG.hPne hp']
        · rw [hRA, countOcc_cons_neg P c _ hG.hPne hPpre2, ih2]
        · rw [hRA, replaceAll_cons_neg Q P c _ hG.hQne hQpre2, ih3]

theorem replace_count {P Q : List Char} {t : Char} (hG : GoodPair P Q t)
    (m : List Char) (hQm : countOcc Q m = 0) :
    countOcc Q (replaceAll P Q m) = countOcc P m ∧
    countOcc P (replaceAll P Q m) = 0 ∧
    replaceAll Q P (replaceAll P Q m) = m :=
  replace_count_main hG m.length m le_rfl hQm

/-- A filtered molecule's partner passes the filter too, and taking the
partner twice gives the molecule back. -/
theorem partner_good {P Q : List Char} {t : Char} (hG : GoodPair P Q t)
    (m : Mol) (htot : labelTotal [P, Q] m = 1) :
    labelTotal [P, Q] (partnerOf [P, Q] m) = 1 ∧
    partnerOf [P, Q] (partnerOf [P, Q] m) = m := by
  rw [labelTotal_pair] at htot
  rcases (by omega :
      (countOcc P m = 1 ∧ countOcc Q m = 0) ∨
      (countOcc P m = 0 ∧ countOcc Q m = 1)) with ⟨h1, h0⟩ | ⟨h0, h1⟩
  · have hpart : partnerOf [P, Q] m = replaceAll P Q m :=
      partnerOf_two_pos P Q m (by omega) h0
    obtain ⟨c1, c2, c3⟩ := replace_count hG m h0
    constructor
    · rw [hpart, labelTotal_pair, c2, c1, h1]
    · rw [hpart, partnerOf_two_neg P Q _ c2 (by rw [c1]; omega), c3]
  · have hpart : partnerOf [P, Q] m = replaceAll Q P m :=
      partnerOf_two_neg P Q m h0 (by omega)
    obtain ⟨c1, c2, c3⟩ := replace_count hG.swap m h0
    constructor
    · rw [hpart, labelTotal_pair, c2, c1, h1]
    · rw [hpart, partnerOf_two_pos P Q _ (by rw [c1]; omega) c2, c3]

/-- **C4** `Complete` is idempotent: for the program's binary label pair
(any pair satisfying `GoodPair`, as `TEV_H`/`TEV_L` do), a second run of
`edit_molecule_list` on the output list and evidence lookup of a successful
first run returns exactly the same list and lookup: the filter keeps every
molecule (originals and synthesized partners all carry exactly one label)
and every partner is already present, so re-synthesis is a no-op. -/
theorem c4_complete_idempotent {P Q : List Char} {t : Char}
    (hG : GoodPair P Q t) (sigOf : Mol → Mol) (l : List Mol)
    (lookup : EvLookup) (res : List Mol × EvLookup)
    (hok : edit_molecule_list sigOf [P, Q] l lookup = .ok res) :
    edit_molecule_list sigOf [P, Q] res.1 res.2 = .ok res := by
  unfold edit_molecule_list at hok
  obtain ⟨hsub, hpart, hfrom⟩ := complete_fold_spec sigOf [P, Q]
    (step1 [P, Q] l) (step1 [P, Q] l, lookup) res hok
  have hsurvtot : ∀ m ∈ step1 [P, Q] l, labelTotal [P, Q] m = 1 := by
    intro m hm
    rw [step1_eq_filter] at hm
    exact of_decide_eq_true (List.mem_filter.mp hm).2
  have hmemtot : ∀ x ∈ res.1, labelTotal [P, Q] x = 1 := by
    intro x hx
    rcases hfrom x hx with hx1 | ⟨m, hm, rfl⟩
    · exact hsurvtot x hx1
    · exact (partner_good hG m (hsurvtot m hm)).1
  have hclosed : ∀ x ∈ res.1, partnerOf [P, Q] x ∈ res.1 := by
    intro x hx
    rcases hfrom x hx with hx1 | ⟨m, hm, rfl⟩
    · exact hpart x hx1
    · rw [(partner_good hG m (hsurvtot m hm)).2]
      exact hsub m hm
  have hstep : step1 [P, Q] res.1 = res.1 := by
    rw [step1_eq_filter]
    apply List.filter_eq_self.mpr
    intro x hx
    simpa using hmemtot x hx
  unfold edit_molecule_list
  rw [hstep]
  exact complete_fold_noop sigOf [P, Q] res.1 (res.1, res.2) hclosed

/-- Witness for `c4_complete_idempotent` with the program's labels
`TEV_H`/`TEV_L` on a concrete one-molecule list. -/
theorem c4_complete_idempotent_witness :
    edit_molecule_list (fun _ => "SIG".toList)
      ["TEV_H".toList, "TEV_L".toList]
      (((["AK#TEV_H:1".toList, "AK#TEV_L:1".toList],
        [("SIG".toList, ([] : List (Mol × EvInfo)))]) :
          List Mol × EvLookup)).1
      (((["AK#TEV_H:1".toList, "AK#TEV_L:1".toList],
        [("SIG".toList, ([] : List (Mol × EvInfo)))]) :
          List Mol × EvLookup)).2 =
      .ok (["AK#TEV_H:1".toList, "AK#TEV_L:1".toList],
        [("SIG".toList, [])]) :=
  c4_complete_idempotent
    (⟨by decide, by decide, by decide, by decide, by decide, by decide,
      by decide, by decide⟩ : GoodPair "TEV_H".toList "TEV_L".toList 'T')
    (fun _ => "SIG".toList) ["AK#TEV_H:1".toList] [("SIG".toList, [])]
    (["AK#TEV_H:1".toList, "AK#TEV_L:1".toList], [("SIG".toList, [])])
    (by
      simp [edit_molecule_list, step1, labelTotal, countOcc, List.isPrefixOf,
        check_pairs, partnerOf, partnerLabels, replaceAll, alookup])
